import Mathlib

/-!
# Verification of the chatbot document retrieval and caching pipeline

Shallow embedding of the retrieval/caching core of the repository:

* `src/document_loader.py` — `load_documents_from_folder`, `load_from_cache`
* `src/document_loader_with_ocr.py` — `load_documents_from_folder_with_ocr`
* `src/retriever.py` — `SimpleRetriever._search_with_query`,
  `SimpleRetriever.retrieve_relevant_chunks`

Python strings are modelled by Lean `String`, with character-list based
implementations of the Python primitives used by the code (lowercasing, the
`in` substring test, `strip`, `split`, slicing), so that every definition is
kernel-executable on concrete inputs.  Python floats are modelled by `ℚ`
(the scores manipulated by the code are exact decimal values, and no float
rounding is relevant to the claims); because `Rat.add`/`Rat.mul` are
irreducible in this library version, the embedding computes with explicit
`mkRat`-based operations `qadd`/`qdivNat` and boolean comparisons
`qle`/`qlt`, each proved equal to the corresponding `ℚ` operation.
Third-party library calls (sklearn's TF-IDF/cosine similarity and
`re.findall` date extraction) are taken as parameters of the embedding: the
TF-IDF cosine-similarity vector for a query is an arbitrary rational list
`simsOf q` (an `Except` value, mirroring that `vectorizer.transform` can
raise and that the surrounding `try` swallows the exception), and the
regex-extracted date patterns are an arbitrary string list `dpOf q`; every
theorem below quantifies over them, adding, where a claim needs it, exactly
the property the library guarantees (e.g. a stop-word-only query has an
all-zero similarity vector because the vectorizer is built with
`stop_words='english'`, and every extracted date pattern is a non-empty
substring of the query).
-/

/-! ## Python string primitives (character-list based, kernel-executable) -/

/-- Python `s.lower()` (ASCII, which is all the embedded code manipulates). -/
def pyLower (s : String) : String := ⟨s.data.map Char.toLower⟩

/-- Auxiliary for the Python substring test: is `t` an infix of `s`? -/
def isSubAux : List Char → List Char → Bool
  | t, [] => t.isEmpty
  | t, c :: rest => t.isPrefixOf (c :: rest) || isSubAux t rest

/-- Python `t in s` on strings: substring containment (`"" in s` is `True`). -/
def pyIn (t s : String) : Bool := isSubAux t.data s.data

/-- Python `s.strip()`: remove leading and trailing whitespace. -/
def pyStrip (s : String) : String :=
  ⟨((s.data.dropWhile Char.isWhitespace).reverse.dropWhile Char.isWhitespace).reverse⟩

/-- Python `s[:n]`. -/
def pyTake (n : ℕ) (s : String) : String := ⟨s.data.take n⟩

/-- Python `s.split()`: split on whitespace runs, dropping empty pieces. -/
def pySplitWs (s : String) : List String :=
  ((s.data.splitOnP Char.isWhitespace).map fun l => (⟨l⟩ : String)).filter (· ≠ "")

/-- Python `len(s)`. -/
def pyLen (s : String) : ℕ := s.data.length

/-! ## Kernel-executable rational arithmetic -/

/-- Boolean `a ≤ b` on ℚ via the executable comparison `Rat.blt`. -/
def qle (a b : ℚ) : Bool := !(Rat.blt b a)

/-- Boolean `a < b` on ℚ via the executable comparison `Rat.blt`. -/
def qlt (a b : ℚ) : Bool := Rat.blt a b

/-- Python `min` on two scores (kernel-executable, unlike Mathlib's `⊓`). -/
def qmin (a b : ℚ) : ℚ := if qle a b then a else b

/-- Python `max` on two scores (kernel-executable, unlike Mathlib's `⊔`). -/
def qmax (a b : ℚ) : ℚ := if qle a b then b else a

/-- Kernel-executable addition on ℚ (`Rat.add` is irreducible). -/
def qadd (a b : ℚ) : ℚ := mkRat (a.num * b.den + b.num * a.den) (a.den * b.den)

/-- Kernel-executable division of a rational by a natural number. -/
def qdivNat (a : ℚ) (n : ℕ) : ℚ := mkRat a.num (a.den * n)

theorem qle_iff (a b : ℚ) : qle a b = true ↔ a ≤ b := by
  rw [qle, Bool.not_eq_true']
  exact Iff.rfl

theorem qlt_iff (a b : ℚ) : qlt a b = true ↔ a < b := Iff.rfl

theorem qmin_eq (a b : ℚ) : qmin a b = min a b := by
  rcases le_or_lt a b with h | h
  · simp [qmin, (qle_iff a b).2 h, min_eq_left h]
  · have hh : qle a b = false := by
      have := (not_congr (qle_iff a b)).2 (not_le.2 h)
      simpa using this
    simp [qmin, hh, min_eq_right h.le]

theorem qmax_eq (a b : ℚ) : qmax a b = max a b := by
  rcases le_or_lt a b with h | h
  · simp [qmax, (qle_iff a b).2 h, max_eq_right h]
  · have hh : qle a b = false := by
      have := (not_congr (qle_iff a b)).2 (not_le.2 h)
      simpa using this
    simp [qmax, hh, max_eq_left h.le]

theorem qadd_eq (a b : ℚ) : qadd a b = a + b := by
  have ha : (a.den : ℚ) ≠ 0 := by positivity
  have hb : (b.den : ℚ) ≠ 0 := by positivity
  rw [qadd, Rat.mkRat_eq_div]
  push_cast
  conv_rhs => rw [← Rat.num_div_den a, ← Rat.num_div_den b]
  rw [div_add_div _ _ ha hb]
  ring_nf

theorem qdivNat_eq (a : ℚ) (n : ℕ) : qdivNat a n = a / n := by
  rcases Nat.eq_zero_or_pos n with hn | hn
  · subst hn; simp [qdivNat, Rat.mkRat_eq_div]
  · rw [qdivNat, Rat.mkRat_eq_div]
    push_cast
    rw [div_mul_eq_div_div, Rat.num_div_den]

/-! ## Document loading (`document_loader.py`, `document_loader_with_ocr.py`)

A discovered source file is modelled by its basename, path, (lowercased)
extension and the outcome of running its extension's extractor on it:
`.ok content` when `load_pdf`/`load_docx`/`load_txt` returns a string
(`load_pdf` catches its own errors and returns an error-message string, so
its outcome is always `.ok`), `.error msg` when the extractor raises
(`load_docx`/`load_txt` re-raise read errors).  The filesystem enumeration
(`os.path.exists` + `glob` over `*.pdf`, `*.docx`, `*.txt`) is modelled by
the `folder_exists` flag and the discovered-file list. -/

structure SrcFile where
  name : String
  path : String
  ext : String
  extraction : Except String String

structure Document where
  file_name : String
  file_path : String
  content : String
  file_type : String
deriving DecidableEq

/-- Per-file body of the loop in `load_documents_from_folder`
(`document_loader.py:118-153`): a non-empty extraction is appended as a
Document; an empty extraction is appended with a placeholder content; an
extractor exception is caught, printed, and the file is **skipped**. -/
def processFile (f : SrcFile) : List Document :=
  match f.extraction with
  | .error _ => []
  | .ok content =>
    if pyStrip content ≠ "" then
      [{ file_name := f.name, file_path := f.path, content := content, file_type := f.ext }]
    else
      [{ file_name := f.name, file_path := f.path,
         content := "This file could not be processed. File: " ++ f.name ++
           "\nReason: No extractable text content found.",
         file_type := f.ext }]

/-- `load_documents_from_folder` (`document_loader.py:85-156`). -/
def load_documents_from_folder (folder_exists : Bool) (all_files : List SrcFile) :
    List Document :=
  if folder_exists then (all_files.map processFile).flatten
  else []

/-- Per-file body of the loop in `load_documents_from_folder_with_ocr`
(`document_loader_with_ocr.py:196-237`): unlike the plain loader, an
extractor exception is caught **and an error Document is appended**. -/
def processFileOcr (f : SrcFile) : List Document :=
  match f.extraction with
  | .error e =>
    [{ file_name := f.name, file_path := f.path,
       content := "Error loading " ++ f.name ++ ": " ++ e, file_type := f.ext }]
  | .ok content =>
    if pyStrip content ≠ "" then
      [{ file_name := f.name, file_path := f.path, content := content, file_type := f.ext }]
    else
      [{ file_name := f.name, file_path := f.path,
         content := "Document could not be processed: " ++ f.name, file_type := f.ext }]

/-- `load_documents_from_folder_with_ocr` (`document_loader_with_ocr.py:166-240`). -/
def load_documents_from_folder_with_ocr (folder_exists : Bool) (all_files : List SrcFile) :
    List Document :=
  if folder_exists then (all_files.map processFileOcr).flatten
  else []

theorem length_load_ocr (files : List SrcFile) :
    (load_documents_from_folder_with_ocr true files).length = files.length := by
  induction files with
  | nil => rfl
  | cons f fs ih =>
    have hf : (processFileOcr f).length = 1 := by
      rcases f with ⟨n, p, e, (msg | c)⟩
      · rfl
      · by_cases h : pyStrip c ≠ "" <;> simp [processFileOcr, h]
    simp [load_documents_from_folder_with_ocr, hf] at *
    omega

theorem length_load_plain_of_ok (files : List SrcFile)
    (h : ∀ f ∈ files, f.extraction.isOk = true) :
    (load_documents_from_folder true files).length = files.length := by
  induction files with
  | nil => rfl
  | cons f fs ih =>
    have hf : (processFile f).length = 1 := by
      rcases hfe : f.extraction with msg | c
      · have := h f (by simp)
        rw [hfe] at this; simp [Except.isOk, Except.toBool] at this
      · by_cases hc : pyStrip c ≠ "" <;> simp [processFile, hfe, hc]
    have ih' := ih (fun g hg => h g (by simp [hg]))
    simp [load_documents_from_folder, hf] at *
    omega

/-! ## OCR-result cache (`document_loader.py:40-62`)

`load_from_cache(file_path)` reads `cache/<stem>_ocr_cache.json` and compares
the stored `file_hash` with the MD5 of the file's current bytes
(`get_file_hash`, `document_loader.py:20-26`).  The cache file's state is
modelled as `none` (no cache file — the `os.path.exists` early return),
`some (.error e)` (file exists but is unreadable or not valid JSON — the
`except` branch), or `some (.ok d)` with the parsed entry; `current_hash` is
the fingerprint recomputed by `get_file_hash` from the file's current
bytes. -/

structure CacheData where
  file_hash : String
  content : Option String
  cached_at : String
deriving DecidableEq

/-- `load_from_cache` (`document_loader.py:40-62`): `none` models the Python
`None` miss result. -/
def load_from_cache (cache_file : Option (Except String CacheData))
    (current_hash : String) : Option String :=
  match cache_file with
  | none => none
  | some (.error _) => none
  | some (.ok d) => if d.file_hash = current_hash then d.content else none

/-! ## The retriever (`retriever.py`)

`SimpleRetriever` state: the stored document list and the TF-IDF index.
`doc_vectors` is `none` exactly when `build_index` returned early on an empty
document list (`retriever.py:77-81`); its actual numeric content is never
inspected by the retrieval code paths modelled here (only
`cosine_similarity`'s output is, which is the `simsOf` parameter), so it is
modelled by a presence flag. -/

inductive MatchType where
  | exact
  | tfidf
  | hybrid
deriving DecidableEq

/-- A retrieval result: the Python code copies the document dict
(`dict(doc)`, `retriever.py:223,247`) and adds the keys `similarity_score`
and `match_type`; the copy is modelled as a record holding the (unchanged)
`Document` plus the two added fields. -/
structure RDoc where
  doc : Document
  similarity_score : ℚ
  match_type : MatchType
deriving DecidableEq

/-- The merge key used by `_search_with_query`: `doc['file_name']`. -/
def RDoc.key (r : RDoc) : String := r.doc.file_name

structure RetrieverState where
  documents : List Document
  doc_vectors : Option Unit

/-- Exact-match score for one matched term:
`min(1.0, len(term) / 20.0 + 0.5)` (`retriever.py:219`). -/
def termScore (t : String) : ℚ := qmin 1 (qadd (qdivNat (pyLen t) 20) (mkRat 1 2))

/-- `search_terms = [query_lower] + date_patterns` (`retriever.py:208`);
`dp` is the regex-extracted date-pattern list (modelled as a parameter). -/
def searchTerms (query : String) (dp : List String) : List String :=
  pyLower query :: dp

/-- The exact-keyword pass over one document (`retriever.py:210-226`):
if any search term is a substring of the lowercased content, produce a
copy of the document scored by the best matched term, `match_type = exact`. -/
def exactEntry (search_terms : List String) (d : Document) : Option RDoc :=
  let content_lower := pyLower d.content
  let matched := search_terms.filter (fun t => pyIn t content_lower)
  if matched.isEmpty then none
  else some ⟨d, matched.foldl (fun m t => qmax m (termScore t)) 0, .exact⟩

def exact_matches (docs : List Document) (search_terms : List String) : List RDoc :=
  docs.filterMap (exactEntry search_terms)

/-! Stable insertion sort, used both for `np.argsort` (ascending, ties by
original index — numpy's sort routine degenerates to a stable insertion
sort on the small arrays at play) and for Python's stable `list.sort`. -/

def insertLe {α : Type} (le : α → α → Bool) (x : α) : List α → List α
  | [] => [x]
  | y :: ys => if le x y then x :: y :: ys else y :: insertLe le x ys

def isort {α : Type} (le : α → α → Bool) : List α → List α
  | [] => []
  | x :: xs => insertLe le x (isort le xs)

/-- Comparison for `np.argsort(similarities)`: ascending by similarity,
ties by original (document) index. -/
def ascLe (sims : List ℚ) (i j : ℕ) : Bool :=
  qlt (sims.getD i 0) (sims.getD j 0) ||
    (decide (sims.getD i 0 = sims.getD j 0) && decide (i ≤ j))

def argsortAsc (sims : List ℚ) : List ℕ := isort (ascLe sims) (List.range sims.length)

/-- `np.argsort(similarities)[::-1][:actual_k]` (`retriever.py:237`). -/
def topIndices (sims : List ℚ) (actual_k : ℕ) : List ℕ :=
  (argsortAsc sims).reverse.take actual_k

/-- One TF-IDF candidate (`retriever.py:241-250`): kept only above the
minimum similarity threshold `0.05`. -/
def tfidfEntry (docs : List Document) (sims : List ℚ) (i : ℕ) : Option RDoc :=
  let s := sims.getD i 0
  if qlt (mkRat 1 20) s then some ⟨docs.getD i ⟨"", "", "", ""⟩, s, .tfidf⟩ else none

def tfidf_matches (docs : List Document) (sims : List ℚ) (top_k : ℕ) : List RDoc :=
  (topIndices sims (min top_k docs.length)).filterMap (tfidfEntry docs sims)

/-- `all_matches[file_name] = doc` for an exact match (`retriever.py:256-258`):
a Python dict assignment replaces in place, else appends. -/
def upsertExact (m : List RDoc) (r : RDoc) : List RDoc :=
  if m.any (fun e => e.key = r.key) then m.map (fun e => if e.key = r.key then r else e)
  else m ++ [r]

/-- Adding one TF-IDF match to the union (`retriever.py:261-271`): a new file
name is appended; an existing entry is raised to the maximum of the two
scores and re-marked `hybrid` — but only when its current score is
strictly smaller. -/
def tfidfStep (m : List RDoc) (r : RDoc) : List RDoc :=
  if m.any (fun e => e.key = r.key) then
    m.map fun e =>
      if e.key = r.key && qlt e.similarity_score r.similarity_score then
        { e with similarity_score := qmax e.similarity_score r.similarity_score,
                 match_type := .hybrid }
      else e
  else m ++ [r]

/-- The merged match dict (`all_matches`, `retriever.py:252-271`), as its
insertion-ordered value list. -/
def all_matches (docs : List Document) (sims : List ℚ) (dp : List String)
    (query : String) (top_k : ℕ) : List RDoc :=
  (tfidf_matches docs sims top_k).foldl tfidfStep
    ((exact_matches docs (searchTerms query dp)).foldl upsertExact [])

/-- Comparison for sorting results: score descending, stable
(Python `list.sort(key=..., reverse=True)`). -/
def descLe (a b : RDoc) : Bool := qle b.similarity_score a.similarity_score

def sortByScoreDesc (l : List RDoc) : List RDoc := isort descLe l

/-- `_search_with_query` (`retriever.py:185-283`).  `simsRes` is the outcome
of `self.vectorizer.transform([query])` followed by `cosine_similarity`;
when that raises, the surrounding `try` returns `[]` (discarding the exact
matches computed before the raise). -/
def search_with_query (docs : List Document) (simsRes : Except String (List ℚ))
    (dp : List String) (query : String) (top_k : ℕ) : List RDoc :=
  match simsRes with
  | .error _ => []
  | .ok sims => (sortByScoreDesc (all_matches docs sims dp query top_k)).take top_k

/-- The question-word stop set of `extract_key_terms` (`retriever.py:132`). -/
def question_words : List String :=
  ["what", "is", "are", "how", "when", "where", "why", "who", "which", "the", "a", "an"]

/-- Python regex `\w`: alphanumeric or underscore (ASCII). -/
def isWordChar (c : Char) : Bool := c.isAlphanum || c = '_'

/-- `extract_key_terms` (`retriever.py:128-141`): lowercase, replace
non-word non-space characters by spaces, split, drop question words and
words of length ≤ 2, re-join with single spaces. -/
def extract_key_terms (query_text : String) : String :=
  let cleaned : String :=
    ⟨(pyLower query_text).data.map fun c => if isWordChar c || c.isWhitespace then c else ' '⟩
  let words := pySplitWs cleaned
  let key_terms := words.filter fun w => !(question_words.contains w) && decide (2 < pyLen w)
  " ".intercalate key_terms

/-- Strategy 3 (`retriever.py:158-166`): try each word of the key terms that
is longer than 4 characters, stopping at the first that yields results. -/
def strategy3Loop (docs : List Document) (simsOf : String → Except String (List ℚ))
    (dpOf : String → List String) (top_k : ℕ) : List String → List RDoc
  | [] => []
  | w :: ws =>
    if 4 < pyLen w then
      let wr := search_with_query docs (simsOf w) (dpOf w) w top_k
      if wr.isEmpty then strategy3Loop docs simsOf dpOf top_k ws else wr
    else strategy3Loop docs simsOf dpOf top_k ws

/-- De-duplication of accumulated strategy results (`retriever.py:169-175`),
keyed by `(file_name, content[:100])`, keeping first occurrences. -/
def dedupAux : List RDoc → List (String × String) → List RDoc
  | [], _ => []
  | r :: rs, seen =>
    let rid := (r.key, pyTake 100 r.doc.content)
    if seen.contains rid then dedupAux rs seen
    else r :: dedupAux rs (rid :: seen)

/-- `retrieve_relevant_chunks` (`retriever.py:110-183`). -/
def retrieve_relevant_chunks (st : RetrieverState)
    (simsOf : String → Except String (List ℚ)) (dpOf : String → List String)
    (query : String) (top_k : ℕ) : List RDoc :=
  if st.doc_vectors.isNone || st.documents.isEmpty then []
  else
    let docs := st.documents
    let results1 := search_with_query docs (simsOf query) (dpOf query) query top_k
    let key_terms := extract_key_terms query
    let results2 :=
      if results1.isEmpty && (key_terms ≠ "" && key_terms ≠ pyLower query) then
        search_with_query docs (simsOf key_terms) (dpOf key_terms) key_terms top_k
      else []
    let base := results1 ++ results2
    let results3 :=
      if base.isEmpty then strategy3Loop docs simsOf dpOf top_k (pySplitWs key_terms)
      else []
    let all_results := base ++ results3
    let unique_results := dedupAux all_results []
    (sortByScoreDesc unique_results).take top_k

/-- `retrieve_relevant_chunks` with the retriever state threaded explicitly:
the method only reads `self.documents`/`self.doc_vectors` and annotates
fresh copies (`dict(doc)`), never the stored dicts, so the state after the
call is the state before it. -/
def retrieve_relevant_chunks_st (st : RetrieverState)
    (simsOf : String → Except String (List ℚ)) (dpOf : String → List String)
    (query : String) (top_k : ℕ) : List RDoc × RetrieverState :=
  (retrieve_relevant_chunks st simsOf dpOf query top_k, st)

/-! ## Generic lemmas about the stable insertion sort -/

theorem insertLe_perm {α : Type} (le : α → α → Bool) (x : α) (l : List α) :
    (insertLe le x l).Perm (x :: l) := by
  induction l with
  | nil => simp [insertLe]
  | cons y ys ih =>
    by_cases h : le x y
    · simp [insertLe, h]
    · simp only [insertLe, h, if_false]
      exact ((ih.cons y).trans (List.Perm.swap x y ys)).symm.symm

theorem isort_perm {α : Type} (le : α → α → Bool) (l : List α) :
    (isort le l).Perm l := by
  induction l with
  | nil => simp [isort]
  | cons x xs ih => exact (insertLe_perm le x (isort le xs)).trans (ih.cons x)

theorem mem_isort {α : Type} (le : α → α → Bool) (l : List α) (a : α) :
    a ∈ isort le l ↔ a ∈ l := (isort_perm le l).mem_iff

theorem length_isort {α : Type} (le : α → α → Bool) (l : List α) :
    (isort le l).length = l.length := (isort_perm le l).length_eq

theorem pairwise_insertLe {α : Type} (le : α → α → Bool)
    (htot : ∀ a b, le a b = true ∨ le b a = true)
    (htrans : ∀ a b c, le a b = true → le b c = true → le a c = true)
    (x : α) (l : List α) (h : l.Pairwise (fun a b => le a b = true)) :
    (insertLe le x l).Pairwise (fun a b => le a b = true) := by
  induction l with
  | nil => simp [insertLe]
  | cons y ys ih =>
    rcases h with _ | ⟨hy, hys⟩
    by_cases hxy : le x y
    · simp only [insertLe, hxy, if_true]
      refine List.Pairwise.cons ?_ (List.Pairwise.cons hy hys)
      intro b hb
      rcases List.mem_cons.1 hb with rfl | hb
      · exact hxy
      · exact htrans x y b hxy (hy b hb)
    · simp only [insertLe, hxy, if_false]
      refine List.Pairwise.cons ?_ (ih hys)
      intro b hb
      rw [(insertLe_perm le x ys).mem_iff] at hb
      rcases List.mem_cons.1 hb with rfl | hb
      · rcases htot y b with h' | h'
        · exact h'
        · exact absurd h' hxy
      · exact hy b hb

theorem pairwise_isort {α : Type} (le : α → α → Bool)
    (htot : ∀ a b, le a b = true ∨ le b a = true)
    (htrans : ∀ a b c, le a b = true → le b c = true → le a c = true)
    (l : List α) : (isort le l).Pairwise (fun a b => le a b = true) := by
  induction l with
  | nil => simp [isort]
  | cons x xs ih => exact pairwise_insertLe le htot htrans x (isort le xs) ih

theorem descLe_total (a b : RDoc) : descLe a b = true ∨ descLe b a = true := by
  rw [descLe, descLe, qle_iff, qle_iff]
  exact le_total b.similarity_score a.similarity_score

theorem descLe_trans (a b c : RDoc) :
    descLe a b = true → descLe b c = true → descLe a c = true := by
  rw [descLe, descLe, descLe, qle_iff, qle_iff, qle_iff]
  intro h1 h2
  exact le_trans h2 h1

theorem ascLe_total (sims : List ℚ) (i j : ℕ) :
    ascLe sims i j = true ∨ ascLe sims j i = true := by
  simp only [ascLe, Bool.or_eq_true, Bool.and_eq_true, decide_eq_true_eq, qlt_iff]
  rcases lt_trichotomy (sims.getD i 0) (sims.getD j 0) with h | h | h
  · exact Or.inl (Or.inl h)
  · rcases Nat.le_total i j with hij | hij
    · exact Or.inl (Or.inr ⟨h, hij⟩)
    · exact Or.inr (Or.inr ⟨h.symm, hij⟩)
  · exact Or.inr (Or.inl h)

theorem ascLe_trans (sims : List ℚ) (i j k : ℕ) :
    ascLe sims i j = true → ascLe sims j k = true → ascLe sims i k = true := by
  simp only [ascLe, Bool.or_eq_true, Bool.and_eq_true, decide_eq_true_eq, qlt_iff]
  rintro (h1 | ⟨h1, h1'⟩) (h2 | ⟨h2, h2'⟩)
  · exact Or.inl (h1.trans h2)
  · exact Or.inl (h2 ▸ h1)
  · exact Or.inl (h1 ▸ h2)
  · exact Or.inr ⟨h1.trans h2, h1'.trans h2'⟩

/-! ## Basic facts about the merged match list -/

/-- The updating branch of `tfidfStep` never changes the underlying document
or the merge key of an entry, only its score and match kind. -/
theorem tfidfStep_map_doc (m : List RDoc) (r : RDoc) :
    ∀ e ∈ tfidfStep m r, (∃ e' ∈ m, e.doc = e'.doc) ∨ e = r := by
  intro e he
  rw [tfidfStep] at he
  by_cases h : m.any (fun e => e.key = r.key)
  · rw [if_pos h] at he
    rcases List.mem_map.1 he with ⟨e', he', rfl⟩
    by_cases hc : e'.key = r.key && qlt e'.similarity_score r.similarity_score
    · exact Or.inl ⟨e', he', by simp [hc]⟩
    · exact Or.inl ⟨e', he', by simp [hc]⟩
  · rw [if_neg h] at he
    rcases List.mem_append.1 he with he | he
    · exact Or.inl ⟨e, he, rfl⟩
    · exact Or.inr (List.mem_singleton.1 he)

theorem upsertExact_mem (m : List RDoc) (r : RDoc) :
    ∀ e ∈ upsertExact m r, e ∈ m ∨ e = r := by
  intro e he
  rw [upsertExact] at he
  by_cases h : m.any (fun e => e.key = r.key)
  · rw [if_pos h] at he
    rcases List.mem_map.1 he with ⟨e', he', rfl⟩
    by_cases hc : e'.key = r.key
    · exact Or.inr (by simp [hc])
    · exact Or.inl (by simp [hc]; exact he')
  · rw [if_neg h] at he
    rcases List.mem_append.1 he with he | he
    · exact Or.inl he
    · exact Or.inr (List.mem_singleton.1 he)

theorem exactEntry_eq (search_terms : List String) (d : Document) (e : RDoc)
    (h : exactEntry search_terms d = some e) :
    e.doc = d ∧ e.match_type = .exact := by
  simp only [exactEntry] at h
  cases hme : (search_terms.filter (fun t => pyIn t (pyLower d.content))).isEmpty with
  | true => rw [hme] at h; simp at h
  | false =>
    rw [hme] at h
    simp only [Bool.false_eq_true, if_false, Option.some.injEq] at h
    subst h
    exact ⟨rfl, rfl⟩

theorem exact_matches_doc_mem (docs : List Document) (ts : List String) :
    ∀ e ∈ exact_matches docs ts, e.doc ∈ docs := by
  intro e he
  rcases List.mem_filterMap.1 he with ⟨d, hd, hde⟩
  rw [(exactEntry_eq ts d e hde).1]
  exact hd

theorem mem_argsortAsc (sims : List ℚ) (i : ℕ) (h : i ∈ argsortAsc sims) :
    i < sims.length := by
  rw [argsortAsc, mem_isort, List.mem_range] at h
  exact h

theorem tfidfEntry_doc_mem (docs : List Document) (sims : List ℚ)
    (hlen : sims.length = docs.length) (i : ℕ) (hi : i < sims.length) (e : RDoc)
    (h : tfidfEntry docs sims i = some e) : e.doc ∈ docs := by
  simp only [tfidfEntry] at h
  cases hq : qlt (mkRat 1 20) (sims.getD i 0) with
  | false => rw [hq] at h; simp at h
  | true =>
    rw [hq] at h
    simp only [if_true, Option.some.injEq] at h
    subst h
    have hi' : i < docs.length := hlen ▸ hi
    rw [List.getD_eq_getElem docs _ hi']
    exact List.getElem_mem hi'

theorem mem_topIndices_lt (sims : List ℚ) (k : ℕ) (i : ℕ) (h : i ∈ topIndices sims k) :
    i < sims.length := by
  rw [topIndices] at h
  exact mem_argsortAsc sims i (List.mem_reverse.1 (List.take_subset _ _ h))

theorem tfidf_matches_doc_mem (docs : List Document) (sims : List ℚ) (k : ℕ)
    (hlen : sims.length = docs.length) :
    ∀ e ∈ tfidf_matches docs sims k, e.doc ∈ docs := by
  intro e he
  rw [tfidf_matches] at he
  rcases List.mem_filterMap.1 he with ⟨i, hi, hie⟩
  exact tfidfEntry_doc_mem docs sims hlen i (mem_topIndices_lt sims _ i hi) e hie

theorem all_matches_doc_mem (docs : List Document) (sims : List ℚ) (dp : List String)
    (query : String) (k : ℕ) (hlen : sims.length = docs.length) :
    ∀ e ∈ all_matches docs sims dp query k, e.doc ∈ docs := by
  rw [all_matches]
  have base : ∀ e ∈ (exact_matches docs (searchTerms query dp)).foldl upsertExact [],
      e.doc ∈ docs := by
    have : ∀ (rs : List RDoc) (m : List RDoc), (∀ e ∈ m, e.doc ∈ docs) →
        (∀ r ∈ rs, r.doc ∈ docs) → ∀ e ∈ rs.foldl upsertExact m, e.doc ∈ docs := by
      intro rs
      induction rs with
      | nil => intro m hm _ e he; exact hm e he
      | cons r rs ih =>
        intro m hm hrs e he
        refine ih (upsertExact m r) ?_ (fun x hx => hrs x (by simp [hx])) e he
        intro x hx
        rcases upsertExact_mem m r x hx with h | rfl
        · exact hm x h
        · exact hrs x (by simp)
    exact this _ [] (by simp) (exact_matches_doc_mem docs (searchTerms query dp))
  have : ∀ (rs : List RDoc) (m : List RDoc), (∀ e ∈ m, e.doc ∈ docs) →
      (∀ r ∈ rs, r.doc ∈ docs) → ∀ e ∈ rs.foldl tfidfStep m, e.doc ∈ docs := by
    intro rs
    induction rs with
    | nil => intro m hm _ e he; exact hm e he
    | cons r rs ih =>
      intro m hm hrs e he
      refine ih (tfidfStep m r) ?_ (fun x hx => hrs x (by simp [hx])) e he
      intro x hx
      rcases tfidfStep_map_doc m r x hx with ⟨e', he', hdd⟩ | rfl
      · exact hdd ▸ hm e' he'
      · exact hrs x (by simp)
  exact this _ _ base (tfidf_matches_doc_mem docs sims k hlen)

theorem search_with_query_doc_mem (docs : List Document) (simsRes : Except String (List ℚ))
    (dp : List String) (query : String) (k : ℕ)
    (hlen : ∀ l, simsRes = .ok l → l.length = docs.length) :
    ∀ r ∈ search_with_query docs simsRes dp query k, r.doc ∈ docs := by
  intro r hr
  cases simsRes with
  | error e => simp [search_with_query] at hr
  | ok sims =>
    rw [search_with_query] at hr
    have hr' := List.take_subset _ _ hr
    rw [sortByScoreDesc, mem_isort] at hr'
    exact all_matches_doc_mem docs sims dp query k (hlen sims rfl) r hr'

theorem dedupAux_subset (l : List RDoc) : ∀ seen, ∀ r ∈ dedupAux l seen, r ∈ l := by
  induction l with
  | nil => intro seen r hr; simp [dedupAux] at hr
  | cons x xs ih =>
    intro seen r hr
    rw [dedupAux] at hr
    by_cases hs : seen.contains (x.key, pyTake 100 x.doc.content)
    · rw [if_pos hs] at hr
      exact List.mem_cons_of_mem x (ih seen r hr)
    · rw [if_neg hs] at hr
      rcases List.mem_cons.1 hr with rfl | hr
      · exact List.mem_cons_self _ _
      · exact List.mem_cons_of_mem x (ih _ r hr)

theorem strategy3Loop_doc_mem (docs : List Document)
    (simsOf : String → Except String (List ℚ)) (dpOf : String → List String) (k : ℕ)
    (hlen : ∀ q l, simsOf q = .ok l → l.length = docs.length) :
    ∀ ws, ∀ r ∈ strategy3Loop docs simsOf dpOf k ws, r.doc ∈ docs := by
  intro ws
  induction ws with
  | nil => intro r hr; simp [strategy3Loop] at hr
  | cons w ws ih =>
    intro r hr
    rw [strategy3Loop] at hr
    by_cases hw : 4 < pyLen w
    · rw [if_pos hw] at hr
      by_cases he : (search_with_query docs (simsOf w) (dpOf w) w k).isEmpty
      · rw [if_pos he] at hr; exact ih r hr
      · rw [if_neg he] at hr
        exact search_with_query_doc_mem docs (simsOf w) (dpOf w) w k (hlen w) r hr
    · rw [if_neg hw] at hr; exact ih r hr

theorem retrieve_doc_mem (st : RetrieverState)
    (simsOf : String → Except String (List ℚ)) (dpOf : String → List String)
    (query : String) (k : ℕ)
    (hlen : ∀ q l, simsOf q = .ok l → l.length = st.documents.length) :
    ∀ r ∈ retrieve_relevant_chunks st simsOf dpOf query k, r.doc ∈ st.documents := by
  intro r hr
  rw [retrieve_relevant_chunks] at hr
  by_cases hguard : st.doc_vectors.isNone || st.documents.isEmpty
  · rw [if_pos hguard] at hr; simp at hr
  · rw [if_neg hguard] at hr
    simp only at hr
    have hr' := List.take_subset _ _ hr
    rw [sortByScoreDesc, mem_isort] at hr'
    have hr'' := dedupAux_subset _ _ r hr'
    rcases List.mem_append.1 hr'' with h12 | h3
    · rcases List.mem_append.1 h12 with h1 | h2
      · exact search_with_query_doc_mem _ _ _ _ _ (hlen query) r h1
      · by_cases hc : (search_with_query st.documents (simsOf query) (dpOf query) query k).isEmpty
          && (extract_key_terms query ≠ "" && extract_key_terms query ≠ pyLower query)
        · rw [if_pos hc] at h2
          exact search_with_query_doc_mem _ _ _ _ _ (hlen _) r h2
        · rw [if_neg hc] at h2; simp at h2
    · by_cases hc : ((search_with_query st.documents (simsOf query) (dpOf query) query k) ++
          (if (search_with_query st.documents (simsOf query) (dpOf query) query k).isEmpty &&
              (extract_key_terms query ≠ "" && extract_key_terms query ≠ pyLower query) then
            search_with_query st.documents (simsOf (extract_key_terms query))
              (dpOf (extract_key_terms query)) (extract_key_terms query) k
          else [])).isEmpty
      · rw [if_pos hc] at h3
        exact strategy3Loop_doc_mem st.documents simsOf dpOf k hlen _ r h3
      · rw [if_neg hc] at h3; simp at h3

/-! ## Concrete documents used by witnesses and counterexamples -/

def docA : Document := ⟨"a.txt", "data/a.txt", "hello world", ".txt"⟩

def docB : Document := ⟨"b.txt", "data/b.txt", "machine learning is ai", ".txt"⟩

/-! ## Claim C10 — missing source directory -/

/-- C10: for every directory path that does not exist, both loaders return
the empty sequence (the `os.path.exists` guard returns `[]` before any file
is touched), raising nothing. -/
theorem c10_missing_folder_returns_empty (files : List SrcFile) :
    load_documents_from_folder false files = [] ∧
    load_documents_from_folder_with_ocr false files = [] :=
  ⟨rfl, rfl⟩

/-! ## Claim C1 — load completeness -/

/-- C1 counterexample: one discovered `.docx` file whose extractor raises.
`load_documents_from_folder` catches the exception, prints, and appends
nothing (`document_loader.py:152-153`), so the load returns 0 documents for
1 discoverable file — the claim says it would return exactly 1. -/
theorem c1_counterexample :
    (load_documents_from_folder true
      [{ name := "a.docx", path := "data/a.docx", ext := ".docx",
         extraction := .error "Error reading DOCX: bad file" }]).length = 0 ∧
    ¬ (load_documents_from_folder true
      [{ name := "a.docx", path := "data/a.docx", ext := ".docx",
         extraction := .error "Error reading DOCX: bad file" }]).length = 1 := by
  constructor
  · rfl
  · decide

/-- C1 (amended): `load_documents_from_folder_with_ocr` returns exactly one
Document per discovered file (placeholders included); the plain
`load_documents_from_folder` does so only when no file's extractor raises —
a raising file (possible for `.docx`/`.txt`) is skipped outright, so that
loader can return fewer Documents than files. -/
theorem c1_load_completeness_amended (files : List SrcFile) :
    (load_documents_from_folder_with_ocr true files).length = files.length ∧
    ((∀ f ∈ files, f.extraction.isOk = true) →
      (load_documents_from_folder true files).length = files.length) :=
  ⟨length_load_ocr files, length_load_plain_of_ok files⟩

def c1Files : List SrcFile :=
  [{ name := "a.txt", path := "data/a.txt", ext := ".txt", extraction := .ok "alpha" },
   { name := "b.pdf", path := "data/b.pdf", ext := ".pdf", extraction := .ok "   " }]

theorem c1_load_completeness_amended_witness :
    (load_documents_from_folder_with_ocr true c1Files).length = c1Files.length ∧
    (load_documents_from_folder true c1Files).length = c1Files.length :=
  ⟨(c1_load_completeness_amended c1Files).1,
   (c1_load_completeness_amended c1Files).2 (by decide)⟩

/-! ## Claim C2 — cache get semantics -/

/-- C2: `load_from_cache` returns a payload or a miss (`none`), and the miss
cases are exactly: no cache entry, unreadable/corrupt entry, or a stored
fingerprint differing from the fingerprint recomputed from the current
bytes; a payload is returned only when the two fingerprints are equal, and
the advisory `cached_at` timestamp never influences the outcome. -/
theorem c2_cache_get (h : String) (d : CacheData) (e : String) (t : String) :
    load_from_cache none h = none ∧
    load_from_cache (some (.error e)) h = none ∧
    (d.file_hash ≠ h → load_from_cache (some (.ok d)) h = none) ∧
    (∀ p, load_from_cache (some (.ok d)) h = some p → d.file_hash = h) ∧
    load_from_cache (some (.ok { d with cached_at := t })) h =
      load_from_cache (some (.ok d)) h := by
  refine ⟨rfl, rfl, ?_, ?_, rfl⟩
  · intro hne
    simp [load_from_cache, hne]
  · intro p hp
    by_contra hne
    simp [load_from_cache, hne] at hp

theorem c2_cache_get_witness :
    load_from_cache (some (.ok ⟨"abc", some "text", "t0"⟩)) "xyz" = none ∧
    (∀ p, load_from_cache (some (.ok ⟨"abc", some "text", "t0"⟩)) "abc" = some p →
      ("abc" : String) = "abc") :=
  ⟨(c2_cache_get "xyz" ⟨"abc", some "text", "t0"⟩ "err" "t1").2.2.1 (by decide),
   fun p hp => (c2_cache_get "abc" ⟨"abc", some "text", "t0"⟩ "err" "t1").2.2.2.1 p hp⟩

/-! ## Claim C6 — retrieve never raises -/

theorem search_with_query_error (docs : List Document) (e : String) (dp : List String)
    (query : String) (k : ℕ) :
    search_with_query docs (.error e) dp query k = [] := rfl

theorem strategy3Loop_all_error (docs : List Document)
    (simsOf : String → Except String (List ℚ)) (dpOf : String → List String) (k : ℕ)
    (herr : ∀ q, ∃ e, simsOf q = .error e) :
    ∀ ws, strategy3Loop docs simsOf dpOf k ws = [] := by
  intro ws
  induction ws with
  | nil => rfl
  | cons w ws ih =>
    rw [strategy3Loop]
    rcases herr w with ⟨e, he⟩
    by_cases hw : 4 < pyLen w
    · rw [if_pos hw, he, search_with_query_error]
      simpa using ih
    · rw [if_neg hw]; exact ih

/-- C6: `retrieve_relevant_chunks` is total and never surfaces an exception:
with an unbuilt index / empty corpus it returns `[]` (`retriever.py:123-124`),
and when the vectorizer raises on every attempted query the exception is
absorbed by the `try`/`except` blocks and the caller still receives `[]`
(`retriever.py:181-183, 279-283`). -/
theorem c6_retrieve_total (st : RetrieverState)
    (simsOf : String → Except String (List ℚ)) (dpOf : String → List String)
    (query : String) (k : ℕ) :
    (st.documents = [] → retrieve_relevant_chunks st simsOf dpOf query k = []) ∧
    ((∀ q, ∃ e, simsOf q = .error e) →
      retrieve_relevant_chunks st simsOf dpOf query k = []) := by
  constructor
  · intro hd
    rw [retrieve_relevant_chunks, if_pos]
    rw [hd]
    simp
  · intro herr
    rw [retrieve_relevant_chunks]
    by_cases hguard : st.doc_vectors.isNone || st.documents.isEmpty
    · rw [if_pos hguard]
    · rw [if_neg hguard]
      rcases herr query with ⟨e1, he1⟩
      rcases herr (extract_key_terms query) with ⟨e2, he2⟩
      simp only [he1, search_with_query_error, he2,
        strategy3Loop_all_error st.documents simsOf dpOf k herr]
      simp [dedupAux, sortByScoreDesc, isort]

theorem c6_retrieve_total_witness :
    retrieve_relevant_chunks ⟨[docA], some ()⟩ (fun _ => .error "transform failed")
      (fun _ => []) "hello" 3 = [] :=
  (c6_retrieve_total ⟨[docA], some ()⟩ (fun _ => .error "transform failed")
    (fun _ => []) "hello" 3).2 (fun _ => ⟨"transform failed", rfl⟩)

/-! ## Claim C8 — retrieval leaves the retriever state unchanged -/

/-- C8: a `retrieve_relevant_chunks` call leaves the retriever's stored
state (document list and index) unchanged, because scores and match kinds
are written only to fresh copies (`dict(doc)`) of the stored document
records; every returned record's underlying document is one of the stored
documents, unmodified. -/
theorem c8_retrieve_frame (st : RetrieverState)
    (simsOf : String → Except String (List ℚ)) (dpOf : String → List String)
    (query : String) (k : ℕ)
    (hlen : ∀ q l, simsOf q = .ok l → l.length = st.documents.length) :
    (retrieve_relevant_chunks_st st simsOf dpOf query k).2 = st ∧
    ∀ r ∈ (retrieve_relevant_chunks_st st simsOf dpOf query k).1,
      r.doc ∈ st.documents :=
  ⟨rfl, retrieve_doc_mem st simsOf dpOf query k hlen⟩

theorem c8_retrieve_frame_witness :
    (retrieve_relevant_chunks_st ⟨[docA], some ()⟩ (fun _ => .ok [mkRat 1 10])
      (fun _ => []) "hello" 3).2 = ⟨[docA], some ()⟩ :=
  (c8_retrieve_frame ⟨[docA], some ()⟩ (fun _ => .ok [mkRat 1 10]) (fun _ => [])
    "hello" 3 (fun q l hl => by cases hl; rfl)).1

/-! ## Characterizations of the search pipeline stages -/

theorem pyIn_empty (s : String) : pyIn "" s = true := by
  rw [pyIn]
  cases s.data with
  | nil => rfl
  | cons c rest => rfl

theorem nodup_map_iff_pairwise {α β : Type} (f : α → β) (l : List α) :
    (l.map f).Nodup ↔ l.Pairwise (fun a b => f a ≠ f b) := by
  rw [List.Nodup, List.pairwise_map]

theorem any_key_eq_false_iff (m : List RDoc) (s : String) :
    m.any (fun e => e.key = s) = false ↔ ∀ e ∈ m, e.key ≠ s := by
  rw [← Bool.not_eq_true, List.any_eq_true]
  push_neg
  constructor
  · intro h e he
    have := h e
    simpa using this he
  · intro h e he
    simpa using h e he

theorem foldl_upsertExact_append :
    ∀ (rs m : List RDoc), ((m ++ rs).map RDoc.key).Nodup →
      rs.foldl upsertExact m = m ++ rs := by
  intro rs
  induction rs with
  | nil => intro m _; simp
  | cons r rs ih =>
    intro m hnd
    have hr : m.any (fun e => e.key = r.key) = false := by
      rw [any_key_eq_false_iff]
      intro e he
      have h1 : (m.map RDoc.key ++ r.key :: rs.map RDoc.key).Nodup := by
        simpa using hnd
      have h2 := (List.nodup_append.1 h1).2.2
      intro hk
      exact h2 (List.mem_map_of_mem RDoc.key he) (by simp [hk])
    have step : upsertExact m r = m ++ [r] := by
      rw [upsertExact, hr]; simp
    rw [List.foldl_cons, step]
    have := ih (m ++ [r]) (by simpa using hnd)
    rw [this, List.append_assoc]
    simp

theorem getD_le_of_forall_le (sims : List ℚ) (b : ℚ) (hb : 0 ≤ b)
    (hsim : ∀ x ∈ sims, x ≤ b) (i : ℕ) : sims.getD i 0 ≤ b := by
  by_cases hi : i < sims.length
  · exact hsim _ (by rw [List.getD_eq_getElem sims 0 hi]; exact List.getElem_mem hi)
  · rw [List.getD_eq_default sims 0 (by omega)]
    exact hb

theorem tfidf_matches_nil (docs : List Document) (sims : List ℚ) (k : ℕ)
    (hsim : ∀ x ∈ sims, x ≤ mkRat 1 20) : tfidf_matches docs sims k = [] := by
  rw [tfidf_matches, List.filterMap_eq_nil]
  intro i _
  have hle : sims.getD i 0 ≤ mkRat 1 20 :=
    getD_le_of_forall_le sims _ (by rw [Rat.mkRat_eq_div]; norm_num) hsim i
  have hq : qlt (mkRat 1 20) (sims.getD i 0) = false := by
    cases hq : qlt (mkRat 1 20) (sims.getD i 0) with
    | false => rfl
    | true => exact absurd ((qlt_iff _ _).1 hq) (not_lt.2 hle)
  simp only [tfidfEntry]
  rw [hq]
  simp

theorem isort_of_pairwise {α : Type} (le : α → α → Bool) (l : List α)
    (h : l.Pairwise (fun a b => le a b = true)) : isort le l = l := by
  induction l with
  | nil => rfl
  | cons x xs ih =>
    have hxs := List.pairwise_cons.1 h
    rw [isort, ih hxs.2]
    cases xs with
    | nil => rfl
    | cons y ys =>
      have hxy : le x y = true := hxs.1 y (by simp)
      rw [insertLe, if_pos hxy]

/-- The per-result dedup id used by `retrieve_relevant_chunks`. -/
def ridOf (r : RDoc) : String × String := (r.key, pyTake 100 r.doc.content)

theorem dedupAux_of_nodup :
    ∀ (l : List RDoc) (seen : List (String × String)),
      (l.map ridOf).Nodup → (∀ r ∈ l, ridOf r ∉ seen) → dedupAux l seen = l := by
  intro l
  induction l with
  | nil => intro seen _ _; rfl
  | cons x xs ih =>
    intro seen hnd hseen
    rw [dedupAux]
    have hx : seen.contains (x.key, pyTake 100 x.doc.content) = false := by
      rw [← Bool.not_eq_true]
      intro hc
      have : ridOf x ∈ seen := by
        have := List.contains_iff_exists_mem_beq.1 hc
        rcases this with ⟨y, hy, hxy⟩
        have : (x.key, pyTake 100 x.doc.content) = y := by
          simpa using hxy
        rw [ridOf, this]
        exact hy
      exact hseen x (by simp) this
    rw [hx]
    simp only [Bool.false_eq_true, if_false]
    congr 1
    refine ih _ (by simpa using (List.nodup_cons.1 (by simpa using hnd)).2) ?_
    intro r hr hmem
    rcases List.mem_cons.1 hmem with heq | hmem'
    · have hx2 : ridOf x ∉ (xs.map ridOf) := (List.nodup_cons.1 (by simpa using hnd)).1
      have heq' : ridOf x ∈ xs.map ridOf := by
        rw [show ridOf x = ridOf r from heq.symm]
        exact List.mem_map_of_mem ridOf hr
      exact hx2 heq'
    · exact hseen r (by simp [hr]) hmem'

theorem exactEntry_none_of_no_match (ts : List String) (d : Document)
    (h : ∀ t ∈ ts, pyIn t (pyLower d.content) = false) : exactEntry ts d = none := by
  simp only [exactEntry]
  have : ts.filter (fun t => pyIn t (pyLower d.content)) = [] := by
    rw [List.filter_eq_nil]
    intro t ht
    simp [h t ht]
  rw [this]
  rfl

theorem exact_matches_nil (docs : List Document) (ts : List String)
    (h : ∀ d ∈ docs, ∀ t ∈ ts, pyIn t (pyLower d.content) = false) :
    exact_matches docs ts = [] := by
  rw [exact_matches, List.filterMap_eq_nil]
  intro d hd
  exact exactEntry_none_of_no_match ts d (h d hd)

theorem search_with_query_nil (docs : List Document) (sims : List ℚ) (dp : List String)
    (query : String) (k : ℕ)
    (hex : ∀ d ∈ docs, ∀ t ∈ searchTerms query dp, pyIn t (pyLower d.content) = false)
    (hsim : ∀ x ∈ sims, x ≤ mkRat 1 20) :
    search_with_query docs (.ok sims) dp query k = [] := by
  rw [search_with_query, all_matches, exact_matches_nil docs _ hex,
    tfidf_matches_nil docs sims k hsim]
  simp [sortByScoreDesc, isort]

/-! ## Claim C7 — stop-word-only queries -/

/-- C7 counterexample: the corpus is non-empty and the query `"the a an"` is
pure stop-words, yet `retrieve_relevant_chunks` is **not** empty, because the
exact-substring pass matches the raw query inside a document containing the
literal text `"the a an"` (scored `min(1, 8/20+0.5) = 0.9`).  The claim's
"for every non-empty corpus" is therefore false as stated. -/
theorem c7_counterexample :
    retrieve_relevant_chunks ⟨[⟨"d.txt", "data/d.txt", "say the a an now", ".txt"⟩], some ()⟩
      (fun _ => .ok [0]) (fun _ => []) "the a an" 3 =
      [⟨⟨"d.txt", "data/d.txt", "say the a an now", ".txt"⟩, mkRat 9 10, .exact⟩] ∧
    retrieve_relevant_chunks ⟨[⟨"d.txt", "data/d.txt", "say the a an now", ".txt"⟩], some ()⟩
      (fun _ => .ok [0]) (fun _ => []) "the a an" 3 ≠ [] := by
  constructor
  · decide
  · decide

/-- C7 (amended): a query whose cleaned words are all question words or at
most 2 characters long (`extract_key_terms` yields `""`) returns the empty
sequence after all fallback rounds — but only under three further side
conditions, none of them automatic: no document's content contains the raw
query as a substring (otherwise the exact pass matches it), the query
yields no date-pattern terms, and every cosine similarity computed for the
query is at most the `0.05` threshold.  The last condition can fail even
within this scope: the vectorizer's token pattern keeps 2-character
tokens, so a 2-character word outside the English stop list can
vector-match a document (see `stopword_query_vector_match` below). -/
theorem c7_stopword_query_empty (st : RetrieverState)
    (simsOf : String → Except String (List ℚ)) (dpOf : String → List String)
    (query : String) (k : ℕ)
    (hkt : extract_key_terms query = "")
    (hdp : dpOf query = [])
    (hsims : ∀ l, simsOf query = .ok l → ∀ x ∈ l, x ≤ mkRat 1 20)
    (hnosub : ∀ d ∈ st.documents, pyIn (pyLower query) (pyLower d.content) = false) :
    retrieve_relevant_chunks st simsOf dpOf query k = [] := by
  rw [retrieve_relevant_chunks]
  by_cases hguard : st.doc_vectors.isNone || st.documents.isEmpty
  · rw [if_pos hguard]
  · rw [if_neg hguard]
    have h1 : search_with_query st.documents (simsOf query) (dpOf query) query k = [] := by
      cases hs : simsOf query with
      | error e => rfl
      | ok sims =>
        refine search_with_query_nil _ _ _ _ _ ?_ (hsims sims hs)
        intro d hd t ht
        rw [hdp] at ht
        simp only [searchTerms, List.mem_singleton] at ht
        subst ht
        exact hnosub d hd
    have h2 : pySplitWs (extract_key_terms query) = [] := by
      rw [hkt]; decide
    simp only [h1, hkt, h2]
    simp [strategy3Loop, dedupAux, sortByScoreDesc, isort]

/-! ## Claim C9 — empty query and exact-score bounds -/

theorem termScore_eq (t : String) :
    termScore t = min 1 ((pyLen t : ℚ) / 20 + 1 / 2) := by
  rw [termScore, qmin_eq, qadd_eq, qdivNat_eq]
  norm_num [Rat.mkRat_eq_div]

theorem termScore_le_one (t : String) : termScore t ≤ 1 := by
  rw [termScore_eq]
  exact min_le_left _ _

theorem termScore_ge (t : String) (h : 1 ≤ pyLen t) : (11 / 20 : ℚ) ≤ termScore t := by
  rw [termScore_eq]
  refine le_min (by norm_num) ?_
  have h1 : (1 : ℚ) ≤ (pyLen t : ℚ) := by exact_mod_cast h
  have : (1 : ℚ) / 20 + 1 / 2 ≤ (pyLen t : ℚ) / 20 + 1 / 2 := by gcongr
  linarith

theorem foldl_qmax_le (f : String → ℚ) (b : ℚ) :
    ∀ (l : List String) (acc : ℚ), acc ≤ b → (∀ t ∈ l, f t ≤ b) →
      l.foldl (fun m t => qmax m (f t)) acc ≤ b := by
  intro l
  induction l with
  | nil => intro acc hacc _; simpa using hacc
  | cons t ts ih =>
    intro acc hacc hl
    rw [List.foldl_cons]
    refine ih _ ?_ (fun u hu => hl u (by simp [hu]))
    rw [qmax_eq]
    exact max_le hacc (hl t (by simp))

theorem foldl_qmax_ge_acc (f : String → ℚ) :
    ∀ (l : List String) (acc : ℚ), acc ≤ l.foldl (fun m t => qmax m (f t)) acc := by
  intro l
  induction l with
  | nil => intro acc; simp
  | cons t ts ih =>
    intro acc
    rw [List.foldl_cons]
    refine le_trans ?_ (ih (qmax acc (f t)))
    rw [qmax_eq]
    exact le_max_left _ _

theorem foldl_qmax_ge_head (f : String → ℚ) (t : String) (ts : List String) (acc : ℚ) :
    f t ≤ (t :: ts).foldl (fun m t => qmax m (f t)) acc := by
  rw [List.foldl_cons]
  refine le_trans ?_ (foldl_qmax_ge_acc f ts (qmax acc (f t)))
  rw [qmax_eq]
  exact le_max_right _ _

theorem exactEntry_score_bounds (ts : List String) (d : Document) (e : RDoc)
    (hts : ∀ t ∈ ts, 1 ≤ pyLen t) (h : exactEntry ts d = some e) :
    (11 / 20 : ℚ) ≤ e.similarity_score ∧ e.similarity_score ≤ 1 := by
  simp only [exactEntry] at h
  cases hme : (ts.filter (fun t => pyIn t (pyLower d.content))).isEmpty with
  | true => rw [hme] at h; simp at h
  | false =>
    rw [hme] at h
    simp only [Bool.false_eq_true, if_false, Option.some.injEq] at h
    subst h
    rcases hcons : ts.filter (fun t => pyIn t (pyLower d.content)) with _ | ⟨t0, rest⟩
    · rw [hcons] at hme; simp at hme
    · have hsub : ∀ u ∈ ts.filter (fun t => pyIn t (pyLower d.content)), 1 ≤ pyLen u :=
        fun u hu => hts u (List.mem_of_mem_filter hu)
      constructor
      · have ht0 : (11 / 20 : ℚ) ≤ termScore t0 :=
          termScore_ge t0 (hsub t0 (by rw [hcons]; simp))
        exact le_trans ht0 (foldl_qmax_ge_head termScore t0 rest 0)
      · exact foldl_qmax_le termScore 1 (t0 :: rest) 0 (by norm_num)
          (fun u _ => termScore_le_one u)

theorem exactEntry_empty_query (dp : List String) (d : Document) (hdp : dp = []) :
    exactEntry (searchTerms "" dp) d = some ⟨d, mkRat 1 2, .exact⟩ := by
  subst hdp
  have hlow : pyLower "" = "" := by decide
  simp only [searchTerms, hlow, exactEntry]
  have hfil : (["" ].filter fun t => pyIn t (pyLower d.content)) = [""] := by
    simp [List.filter, pyIn_empty]
  rw [hfil]
  have : List.foldl (fun m t => qmax m (termScore t)) 0 [""] = mkRat 1 2 := by decide
  rw [this]
  rfl

theorem filterMap_eq_map_of_forall {α β : Type} (f : α → Option β) (g : α → β) :
    ∀ l : List α, (∀ a ∈ l, f a = some (g a)) → l.filterMap f = l.map g := by
  intro l
  induction l with
  | nil => intro _; rfl
  | cons a as ih =>
    intro h
    rw [List.filterMap_cons, h a (by simp), List.map_cons, ih (fun x hx => h x (by simp [hx]))]

theorem exact_matches_empty_query (docs : List Document) :
    exact_matches docs (searchTerms "" []) =
      docs.map (fun d => (⟨d, mkRat 1 2, .exact⟩ : RDoc)) :=
  filterMap_eq_map_of_forall _ _ docs (fun d _ => exactEntry_empty_query [] d rfl)

theorem halfList_keys (docs : List Document) :
    ((docs.map fun d => (⟨d, mkRat 1 2, .exact⟩ : RDoc)).map RDoc.key) =
      docs.map Document.file_name := by
  rw [List.map_map]
  rfl

theorem halfList_pairwise (l : List RDoc)
    (h : ∀ a ∈ l, a.similarity_score = mkRat 1 2) :
    l.Pairwise (fun a b => descLe a b = true) := by
  refine List.pairwise_of_forall_mem_list ?_
  intro a ha b hb
  rw [descLe, h a ha, h b hb]
  decide

theorem search_empty_query (docs : List Document) (sims : List ℚ) (k : ℕ)
    (hnd : (docs.map Document.file_name).Nodup)
    (hsim : ∀ x ∈ sims, x ≤ mkRat 1 20) :
    search_with_query docs (.ok sims) [] "" k =
      (docs.map fun d => (⟨d, mkRat 1 2, .exact⟩ : RDoc)).take k := by
  rw [search_with_query, all_matches, exact_matches_empty_query docs,
    tfidf_matches_nil docs sims k hsim, List.foldl_nil]
  rw [foldl_upsertExact_append _ [] (by rw [List.nil_append, halfList_keys]; exact hnd),
    List.nil_append]
  rw [sortByScoreDesc, isort_of_pairwise]
  refine halfList_pairwise _ ?_
  intro a ha
  rcases List.mem_map.1 ha with ⟨d, _, rfl⟩
  rfl

theorem pyLen_pyLower (s : String) : pyLen (pyLower s) = pyLen s := by
  rw [pyLen, pyLower, pyLen]
  exact List.length_map s.data Char.toLower

theorem rid_pairwise_of_keys (l : List RDoc) (h : (l.map RDoc.key).Nodup) :
    (l.map ridOf).Nodup := by
  rw [nodup_map_iff_pairwise] at h ⊢
  refine h.imp ?_
  intro a b hab hr
  exact hab (congrArg Prod.fst hr)

/-- C9 counterexample: two documents sharing the same `file_name` against
the empty query; the merge dict collapses them, so `retrieve` returns 1
result where the claim predicts `min(k, N) = 2`. -/
theorem c9_counterexample :
    (retrieve_relevant_chunks
      ⟨[⟨"a", "p1", "x", ".txt"⟩, ⟨"a", "p2", "y", ".txt"⟩], some ()⟩
      (fun _ => .ok [0, 0]) (fun _ => []) "" 2).length = 1 ∧
    ¬ ((retrieve_relevant_chunks
      ⟨[⟨"a", "p1", "x", ".txt"⟩, ⟨"a", "p2", "y", ".txt"⟩], some ()⟩
      (fun _ => .ok [0, 0]) (fun _ => []) "" 2).length = min 2 2) := by
  constructor
  · decide
  · decide

/-- C9 (amended): over a corpus whose file names are pairwise distinct
(`retrieve` merges results by file name, so duplicate names collapse), the
empty query exact-matches every document (the empty string is a substring
of every content) at score exactly `0.5`, and `retrieve` returns the first
`min(k, N)` documents, each scored `0.5` and marked exact; moreover every
exact-strategy match, for a non-empty query and non-empty date-pattern
terms, is scored at least `0.55` and at most `1.0`. -/
theorem c9_empty_query_amended (docs : List Document) (sims : List ℚ)
    (simsOf : String → Except String (List ℚ)) (dpOf : String → List String) (k : ℕ)
    (hnd : (docs.map Document.file_name).Nodup)
    (hs : simsOf "" = .ok sims)
    (hsim : ∀ x ∈ sims, x ≤ mkRat 1 20)
    (hdp : dpOf "" = []) :
    retrieve_relevant_chunks ⟨docs, some ()⟩ simsOf dpOf "" k =
      (docs.map fun d => (⟨d, mkRat 1 2, .exact⟩ : RDoc)).take k ∧
    (retrieve_relevant_chunks ⟨docs, some ()⟩ simsOf dpOf "" k).length =
      min k docs.length ∧
    ∀ (q : String) (dp : List String) (docs' : List Document), 1 ≤ pyLen q →
      (∀ t ∈ dp, 1 ≤ pyLen t) →
      ∀ e ∈ exact_matches docs' (searchTerms q dp),
        (11 / 20 : ℚ) ≤ e.similarity_score ∧ e.similarity_score ≤ 1 := by
  have hmain : retrieve_relevant_chunks ⟨docs, some ()⟩ simsOf dpOf "" k =
      (docs.map fun d => (⟨d, mkRat 1 2, .exact⟩ : RDoc)).take k := by
    by_cases hdocs : docs.isEmpty
    · rw [retrieve_relevant_chunks, if_pos (by simp [hdocs])]
      rw [List.isEmpty_iff] at hdocs
      subst hdocs
      simp
    · rw [retrieve_relevant_chunks, if_neg (by simp [hdocs])]
      have h1 : search_with_query docs (simsOf "") (dpOf "") "" k =
          (docs.map fun d => (⟨d, mkRat 1 2, .exact⟩ : RDoc)).take k := by
        rw [hs, hdp]
        exact search_empty_query docs sims k hnd hsim
      by_cases hk : ((docs.map fun d => (⟨d, mkRat 1 2, .exact⟩ : RDoc)).take k) = []
      · have hkt : extract_key_terms "" = "" := by decide
        have hws : pySplitWs (extract_key_terms "") = [] := by decide
        simp only [h1, hk, hkt, hws]
        simp [strategy3Loop, dedupAux, sortByScoreDesc, isort]
      · have htk : ((docs.map fun d => (⟨d, mkRat 1 2, .exact⟩ : RDoc)).take k).isEmpty
            = false := by
          rw [← Bool.not_eq_true, List.isEmpty_iff]
          exact hk
        simp only [h1, htk, Bool.false_and, Bool.false_eq_true, if_false, List.append_nil]
        have hded : dedupAux ((docs.map fun d => (⟨d, mkRat 1 2, .exact⟩ : RDoc)).take k)
            [] = (docs.map fun d => (⟨d, mkRat 1 2, .exact⟩ : RDoc)).take k := by
          refine dedupAux_of_nodup _ [] ?_ (by simp)
          rw [List.map_take]
          refine List.Nodup.sublist (List.take_sublist k _) ?_
          refine rid_pairwise_of_keys _ ?_
          rw [halfList_keys]
          exact hnd
        have hsort : sortByScoreDesc
            ((docs.map fun d => (⟨d, mkRat 1 2, .exact⟩ : RDoc)).take k) =
            (docs.map fun d => (⟨d, mkRat 1 2, .exact⟩ : RDoc)).take k := by
          refine isort_of_pairwise _ _ (halfList_pairwise _ ?_)
          intro a ha
          have := List.take_subset _ _ ha
          rcases List.mem_map.1 this with ⟨d, _, rfl⟩
          rfl
        rw [hded, hsort, List.take_take]
        simp
  exact ⟨hmain, by rw [hmain]; simp, fun q dp docs' hq hdpl e he => by
    rcases List.mem_filterMap.1 he with ⟨d, _, hde⟩
    refine exactEntry_score_bounds _ d e ?_ hde
    intro t ht
    rcases List.mem_cons.1 ht with rfl | ht'
    · rw [pyLen_pyLower]; exact hq
    · exact hdpl t ht'⟩

theorem c9_empty_query_amended_witness :
    retrieve_relevant_chunks ⟨[docA, docB], some ()⟩ (fun _ => .ok [0, 0])
      (fun _ => []) "" 3 =
      ([docA, docB].map fun d => (⟨d, mkRat 1 2, .exact⟩ : RDoc)).take 3 :=
  (c9_empty_query_amended [docA, docB] [0, 0] (fun _ => .ok [0, 0]) (fun _ => []) 3
    (by decide) rfl (by decide) rfl).1

theorem c7_stopword_query_empty_witness :
    retrieve_relevant_chunks ⟨[docB], some ()⟩ (fun _ => .ok [0]) (fun _ => [])
      "the a an" 3 = [] :=
  c7_stopword_query_empty ⟨[docB], some ()⟩ (fun _ => .ok [0]) (fun _ => [])
    "the a an" 3 (by decide) rfl
    (fun l hl => by
      cases hl
      intro x hx
      rcases List.mem_singleton.1 hx with rfl
      decide)
    (by decide)

/-- The cosine-similarity bound in the amended C7 is a genuine side
condition, not a library guarantee: `extract_key_terms "zz zz" = ""` (both
tokens have length 2), no content contains the raw query, yet with a
cosine score of `0.1` — attainable because the vectorizer keeps
2-character tokens such as `"zz"` — the TF-IDF pass returns the document. -/
theorem stopword_query_vector_match :
    extract_key_terms "zz zz" = "" ∧
    pyIn (pyLower "zz zz") (pyLower "the token zz occurs") = false ∧
    retrieve_relevant_chunks
      ⟨[⟨"z.txt", "data/z.txt", "the token zz occurs", ".txt"⟩], some ()⟩
      (fun _ => .ok [mkRat 1 10]) (fun _ => []) "zz zz" 3 =
      [⟨⟨"z.txt", "data/z.txt", "the token zz occurs", ".txt"⟩, mkRat 1 10, .tfidf⟩] := by
  refine ⟨by decide, by decide, by decide⟩

/-! ## Claim C3 — merge of exact and vector matches -/

/-- The element-wise update performed by `tfidfStep`'s dict branch. -/
def tfidfUpd (r e : RDoc) : RDoc :=
  if e.key = r.key && qlt e.similarity_score r.similarity_score then
    { e with similarity_score := qmax e.similarity_score r.similarity_score,
             match_type := .hybrid }
  else e

theorem tfidfStep_eq (m : List RDoc) (r : RDoc) :
    tfidfStep m r =
      if m.any (fun e => e.key = r.key) then m.map (tfidfUpd r) else m ++ [r] := rfl

theorem tfidfUpd_key (r e : RDoc) : (tfidfUpd r e).key = e.key := by
  rw [tfidfUpd]
  by_cases h : e.key = r.key && qlt e.similarity_score r.similarity_score
  · rw [if_pos h]; rfl
  · rw [if_neg h]

theorem tfidfUpd_of_key_ne (r e : RDoc) (h : e.key ≠ r.key) : tfidfUpd r e = e := by
  rw [tfidfUpd, if_neg]
  simp [h]

theorem filter_key_map_upd (u : RDoc → RDoc) (hu : ∀ e, (u e).key = e.key) (K : String) :
    ∀ m : List RDoc,
      (m.map u).filter (fun x => x.key == K) = (m.filter (fun x => x.key == K)).map u := by
  intro m
  induction m with
  | nil => rfl
  | cons e es ih =>
    rw [List.map_cons, List.filter_cons, List.filter_cons]
    by_cases h : (e.key == K) = true
    · have h' : ((u e).key == K) = true := by rw [hu e]; exact h
      rw [if_pos h', if_pos h, List.map_cons, ih]
    · have h' : ((u e).key == K) ≠ true := by rw [hu e]; exact h
      rw [if_neg h', if_neg h, ih]

theorem filter_key_tfidfStep_ne (m : List RDoc) (r : RDoc) (K : String) (hne : r.key ≠ K) :
    (tfidfStep m r).filter (fun x => x.key == K) = m.filter (fun x => x.key == K) := by
  rw [tfidfStep_eq]
  by_cases h : m.any (fun e => e.key = r.key)
  · rw [if_pos h, filter_key_map_upd (tfidfUpd r) (tfidfUpd_key r) K m]
    conv_rhs => rw [← List.map_id (m.filter (fun x => x.key == K))]
    refine List.map_congr_left ?_
    intro e he
    show tfidfUpd r e = e
    refine tfidfUpd_of_key_ne r e ?_
    have hk : (e.key == K) = true := (List.mem_filter.1 he).2
    intro hek
    exact hne (by rw [← hek]; exact beq_iff_eq.1 hk)
  · rw [if_neg h, List.filter_append]
    have hsingle : ([r].filter (fun x => x.key == K)) = [] := by
      have hb : (r.key == K) = false := by simp [hne]
      simp [List.filter_cons, hb]
    rw [hsingle, List.append_nil]

theorem filter_key_tfidfStep_self (m : List RDoc) (r e₀ : RDoc)
    (hf : m.filter (fun x => x.key == r.key) = [e₀]) :
    (tfidfStep m r).filter (fun x => x.key == r.key) = [tfidfUpd r e₀] := by
  have hmem : e₀ ∈ m.filter (fun x => x.key == r.key) := by rw [hf]; simp
  have hany : m.any (fun e => e.key = r.key) = true := by
    rw [List.any_eq_true]
    exact ⟨e₀, List.mem_of_mem_filter hmem,
      by simpa using beq_iff_eq.1 ((List.mem_filter.1 hmem).2)⟩
  rw [tfidfStep_eq, if_pos hany, filter_key_map_upd (tfidfUpd r) (tfidfUpd_key r) _ m, hf]
  rfl

theorem foldl_tfidfStep_filter_nil (K : String) :
    ∀ (TM m : List RDoc), TM.filter (fun x => x.key == K) = [] →
      (TM.foldl tfidfStep m).filter (fun x => x.key == K) =
        m.filter (fun x => x.key == K) := by
  intro TM
  induction TM with
  | nil => intro m _; rfl
  | cons t rest ih =>
    intro m hf
    rw [List.filter_cons] at hf
    by_cases ht : t.key == K
    · rw [if_pos (by simp [ht])] at hf
      exact absurd hf (by simp)
    · rw [if_neg (by simpa using ht)] at hf
      rw [List.foldl_cons, ih (tfidfStep m t) hf,
        filter_key_tfidfStep_ne m t K (by simpa using ht)]

theorem foldl_tfidfStep_filter_one (K : String) (r e₀ : RDoc) (hrK : r.key = K) :
    ∀ (TM m : List RDoc), TM.filter (fun x => x.key == K) = [r] →
      m.filter (fun x => x.key == K) = [e₀] →
      (TM.foldl tfidfStep m).filter (fun x => x.key == K) = [tfidfUpd r e₀] := by
  intro TM
  induction TM with
  | nil => intro m hf _; exact absurd hf (by simp)
  | cons t rest ih =>
    intro m hf hm
    rw [List.filter_cons] at hf
    by_cases ht : t.key == K
    · rw [if_pos (by simp [ht])] at hf
      have ht' : t = r := (List.cons_eq_cons.1 hf).1
      have hrest : rest.filter (fun x => x.key == K) = [] := (List.cons_eq_cons.1 hf).2
      subst ht'
      rw [List.foldl_cons, foldl_tfidfStep_filter_nil K rest _ hrest, ← hrK]
      exact filter_key_tfidfStep_self m t e₀ (by rw [hrK]; exact hm)
    · rw [if_neg (by simpa using ht)] at hf
      rw [List.foldl_cons, ih (tfidfStep m t) hf
        (by rw [filter_key_tfidfStep_ne m t K (by simpa using ht)]; exact hm)]

theorem RDoc.key_mk (d : Document) (s : ℚ) (t : MatchType) :
    RDoc.key ⟨d, s, t⟩ = d.file_name := rfl

theorem tfidfStep_keys_nodup (m : List RDoc) (r : RDoc)
    (h : (m.map RDoc.key).Nodup) : ((tfidfStep m r).map RDoc.key).Nodup := by
  rw [tfidfStep_eq]
  by_cases hany : m.any (fun e => e.key = r.key)
  · rw [if_pos hany, List.map_map]
    have : (RDoc.key ∘ tfidfUpd r) = RDoc.key := funext fun e => tfidfUpd_key r e
    rw [this]
    exact h
  · rw [if_neg hany, List.map_append]
    rw [List.nodup_append]
    refine ⟨h, List.nodup_singleton _, ?_⟩
    intro x hx hr
    rcases List.mem_map.1 hx with ⟨e, he, rfl⟩
    have := (any_key_eq_false_iff m r.key).1 (Bool.eq_false_iff.2 hany) e he
    simp only [List.map_cons, List.map_nil, List.mem_singleton] at hr
    exact this hr

theorem foldl_tfidfStep_keys_nodup :
    ∀ (TM m : List RDoc), (m.map RDoc.key).Nodup →
      (((TM.foldl tfidfStep m)).map RDoc.key).Nodup := by
  intro TM
  induction TM with
  | nil => intro m h; exact h
  | cons t rest ih =>
    intro m h
    rw [List.foldl_cons]
    exact ih (tfidfStep m t) (tfidfStep_keys_nodup m t h)

theorem exact_matches_keys_sublist (docs : List Document) (ts : List String) :
    ((exact_matches docs ts).map RDoc.key).Sublist (docs.map Document.file_name) := by
  induction docs with
  | nil => simp [exact_matches]
  | cons d rest ih =>
    rw [exact_matches, List.filterMap_cons]
    cases he : exactEntry ts d with
    | none =>
      rw [List.map_cons]
      exact List.Sublist.cons _ ih
    | some e =>
      rw [List.map_cons, List.map_cons]
      have hk : e.key = d.file_name := by
        rw [RDoc.key, (exactEntry_eq ts d e he).1]
      rw [hk]
      exact List.Sublist.cons₂ _ ih

theorem all_matches_key_mem (docs : List Document) (sims : List ℚ) (dp : List String)
    (query : String) (k : ℕ) (hlen : sims.length = docs.length) :
    ∀ x ∈ (all_matches docs sims dp query k).map RDoc.key,
      x ∈ docs.map Document.file_name := by
  intro x hx
  rcases List.mem_map.1 hx with ⟨r, hr, rfl⟩
  have := all_matches_doc_mem docs sims dp query k hlen r hr
  exact List.mem_map_of_mem Document.file_name this

theorem all_matches_length_le (docs : List Document) (sims : List ℚ) (dp : List String)
    (query : String) (k : ℕ) (hlen : sims.length = docs.length)
    (hnd : (docs.map Document.file_name).Nodup) :
    (all_matches docs sims dp query k).length ≤ docs.length := by
  have hkeys : ((all_matches docs sims dp query k).map RDoc.key).Nodup := by
    rw [all_matches]
    refine foldl_tfidfStep_keys_nodup _ _ ?_
    rw [foldl_upsertExact_append _ [] (by
      rw [List.nil_append]
      exact (exact_matches_keys_sublist docs (searchTerms query dp)).nodup hnd)]
    rw [List.nil_append]
    exact (exact_matches_keys_sublist docs (searchTerms query dp)).nodup hnd
  have hsub := List.subperm_of_subset hkeys
    (fun x hx => all_matches_key_mem docs sims dp query k hlen x hx)
  have := hsub.length_le
  rw [List.length_map, List.length_map] at this
  exact this

theorem name_ne_of_index_ne (docs : List Document)
    (hnd : (docs.map Document.file_name).Nodup) (i j : ℕ)
    (hi : i < docs.length) (hj : j < docs.length) (hij : j ≠ i) :
    (docs.getD j ⟨"", "", "", ""⟩).file_name ≠ (docs.getD i ⟨"", "", "", ""⟩).file_name := by
  rw [List.getD_eq_getElem docs _ hi, List.getD_eq_getElem docs _ hj]
  intro he
  have hdocs : docs.Nodup := List.Nodup.of_map Document.file_name hnd
  have heq : docs[j] = docs[i] :=
    List.inj_on_of_nodup_map hnd (List.getElem_mem hj) (List.getElem_mem hi) he
  exact hij ((List.Nodup.getElem_inj_iff hdocs).1 heq)

theorem exact_matches_filter_key (ts : List String) :
    ∀ (docs : List Document) (i : ℕ) (e₀ : RDoc),
      (docs.map Document.file_name).Nodup → i < docs.length →
      exactEntry ts (docs.getD i ⟨"", "", "", ""⟩) = some e₀ →
      (exact_matches docs ts).filter
        (fun x => x.key == (docs.getD i ⟨"", "", "", ""⟩).file_name) = [e₀] := by
  intro docs
  induction docs with
  | nil => intro i e₀ _ hi _; simp at hi
  | cons d rest ih =>
    intro i e₀ hnd hi hex
    rw [List.map_cons] at hnd
    have hdn : d.file_name ∉ rest.map Document.file_name := (List.nodup_cons.1 hnd).1
    have hndr : (rest.map Document.file_name).Nodup := (List.nodup_cons.1 hnd).2
    cases i with
    | zero =>
      have hget : (d :: rest).getD 0 ⟨"", "", "", ""⟩ = d := rfl
      rw [hget] at hex ⊢
      rw [exact_matches, List.filterMap_cons, hex, List.filter_cons]
      have hk0 : e₀.key = d.file_name := by
        rw [RDoc.key, (exactEntry_eq ts d e₀ hex).1]
      rw [if_pos (by rw [hk0]; exact beq_self_eq_true _)]
      have hrest : (rest.filterMap (exactEntry ts)).filter
          (fun x => x.key == d.file_name) = [] := by
        rw [List.filter_eq_nil]
        intro e he
        have hdoc : e.doc ∈ rest := exact_matches_doc_mem rest ts e he
        have hne : e.key ≠ d.file_name := by
          rw [RDoc.key]
          intro hcontra
          exact hdn (hcontra ▸ List.mem_map_of_mem Document.file_name hdoc)
        simp [hne]
      rw [hrest]
    | succ j =>
      have hget : (d :: rest).getD (j + 1) ⟨"", "", "", ""⟩ = rest.getD j ⟨"", "", "", ""⟩ :=
        rfl
      rw [hget] at hex ⊢
      have hj : j < rest.length := by simpa using hi
      have hK : (rest.getD j ⟨"", "", "", ""⟩).file_name ∈ rest.map Document.file_name := by
        rw [List.getD_eq_getElem rest _ hj]
        exact List.mem_map_of_mem Document.file_name (List.getElem_mem hj)
      have hdK : d.file_name ≠ (rest.getD j ⟨"", "", "", ""⟩).file_name := by
        intro hcontra
        exact hdn (hcontra ▸ hK)
      rw [exact_matches, List.filterMap_cons]
      have htail := ih j e₀ hndr hj hex
      rw [exact_matches] at htail
      cases he : exactEntry ts d with
      | none => exact htail
      | some e =>
        rw [List.filter_cons, if_neg (by
          have hke : e.key = d.file_name := by rw [RDoc.key, (exactEntry_eq ts d e he).1]
          rw [hke]
          exact fun hc => hdK (beq_iff_eq.1 hc))]
        exact htail

theorem tfidfEntry_of_pos (docs : List Document) (sims : List ℚ) (j : ℕ)
    (h : qlt (mkRat 1 20) (sims.getD j 0) = true) :
    tfidfEntry docs sims j =
      some ⟨docs.getD j ⟨"", "", "", ""⟩, sims.getD j 0, .tfidf⟩ := by
  simp only [tfidfEntry]
  rw [if_pos h]

theorem tfidfEntry_some_eq (docs : List Document) (sims : List ℚ) (j : ℕ) (e : RDoc)
    (h : tfidfEntry docs sims j = some e) :
    e = ⟨docs.getD j ⟨"", "", "", ""⟩, sims.getD j 0, .tfidf⟩ := by
  simp only [tfidfEntry] at h
  cases hq : qlt (mkRat 1 20) (sims.getD j 0) with
  | false => rw [hq] at h; simp at h
  | true =>
    rw [hq] at h
    simp only [if_true, Option.some.injEq] at h
    exact h.symm

theorem filterMap_tfidf_filter_nil (docs : List Document) (sims : List ℚ) (K : String) :
    ∀ l : List ℕ, (∀ j ∈ l, (docs.getD j ⟨"", "", "", ""⟩).file_name ≠ K) →
      (l.filterMap (tfidfEntry docs sims)).filter (fun x => x.key == K) = [] := by
  intro l
  induction l with
  | nil => intro _; rfl
  | cons j rest ih =>
    intro h
    rw [List.filterMap_cons]
    cases he : tfidfEntry docs sims j with
    | none => exact ih (fun j' hj' => h j' (by simp [hj']))
    | some e =>
      rw [List.filter_cons, if_neg (by
        rw [tfidfEntry_some_eq docs sims j e he, RDoc.key_mk]
        exact fun hc => h j (by simp) (beq_iff_eq.1 hc))]
      exact ih (fun j' hj' => h j' (by simp [hj']))

theorem tfidf_matches_filter_key (docs : List Document) (sims : List ℚ) (k i : ℕ)
    (hnd : (docs.map Document.file_name).Nodup)
    (hlen : sims.length = docs.length)
    (hk : docs.length ≤ k)
    (hi : i < docs.length)
    (htf : qlt (mkRat 1 20) (sims.getD i 0) = true) :
    (tfidf_matches docs sims k).filter
        (fun x => x.key == (docs.getD i ⟨"", "", "", ""⟩).file_name) =
      [⟨docs.getD i ⟨"", "", "", ""⟩, sims.getD i 0, .tfidf⟩] := by
  have hperm : (topIndices sims (min k docs.length)).Perm (List.range sims.length) := by
    rw [topIndices]
    have hlen2 : (argsortAsc sims).reverse.length = sims.length := by
      rw [List.length_reverse, argsortAsc, length_isort, List.length_range]
    rw [min_eq_right hk, List.take_of_length_le (by rw [hlen2, hlen])]
    exact (List.reverse_perm _).trans (isort_perm _ _)
  have hndt : (topIndices sims (min k docs.length)).Nodup :=
    hperm.nodup_iff.2 (List.nodup_range _)
  have hmem : i ∈ topIndices sims (min k docs.length) := by
    rw [hperm.mem_iff, List.mem_range, hlen]
    exact hi
  have hbound : ∀ j ∈ topIndices sims (min k docs.length), j < docs.length := by
    intro j hj
    have := hperm.mem_iff.1 hj
    rw [List.mem_range, hlen] at this
    exact this
  rw [tfidf_matches]
  have main : ∀ l : List ℕ, l.Nodup → i ∈ l → (∀ j ∈ l, j < docs.length) →
      (l.filterMap (tfidfEntry docs sims)).filter
          (fun x => x.key == (docs.getD i ⟨"", "", "", ""⟩).file_name) =
        [⟨docs.getD i ⟨"", "", "", ""⟩, sims.getD i 0, .tfidf⟩] := by
    intro l
    induction l with
    | nil => intro _ hmem' _; simp at hmem'
    | cons j rest ih =>
      intro hndl hmem' hb
      rw [List.filterMap_cons]
      by_cases hji : j = i
      · subst hji
        rw [tfidfEntry_of_pos docs sims j htf, List.filter_cons,
          if_pos (by rw [RDoc.key_mk]; exact beq_self_eq_true _)]
        have hrest : (rest.filterMap (tfidfEntry docs sims)).filter
            (fun x => x.key == (docs.getD j ⟨"", "", "", ""⟩).file_name) = [] := by
          refine filterMap_tfidf_filter_nil docs sims _ rest ?_
          intro j' hj'
          have hne : j' ≠ j := by
            intro hcontra
            exact (List.nodup_cons.1 hndl).1 (hcontra ▸ hj')
          exact name_ne_of_index_ne docs hnd j j' hi (hb j' (by simp [hj'])) hne
        rw [hrest]
      · have hmemr : i ∈ rest := by
          rcases List.mem_cons.1 hmem' with h | h
          · exact absurd h.symm hji
          · exact h
        have htail := ih (List.nodup_cons.1 hndl).2 hmemr (fun j' hj' => hb j' (by simp [hj']))
        cases he : tfidfEntry docs sims j with
        | none => exact htail
        | some e =>
          rw [List.filter_cons, if_neg (by
            rw [tfidfEntry_some_eq docs sims j e he, RDoc.key_mk]
            exact fun hc =>
              name_ne_of_index_ne docs hnd i j hi (hb j (by simp)) hji (beq_iff_eq.1 hc))]
          exact htail
  exact main _ hndt hmem hbound

theorem qmax_eq_left (a b : ℚ) (h : b ≤ a) : qmax a b = a := by
  rw [qmax_eq]
  exact max_eq_left h

/-- C3 counterexample: `docA` (content "hello world") is matched by both
strategies for the query "hello" — the exact pass (substring, score
`min(1, 5/20 + 0.5) = 0.75`) and the vector pass (cosine `0.1 > 0.05`) —
but because the exact score is not strictly smaller than the vector score
the merge keeps `match_type = exact`: the claim's "kind = hybrid" is false.
The score is still the maximum of the two. -/
theorem c3_counterexample :
    pyIn (pyLower "hello") (pyLower docA.content) = true ∧
    qlt (mkRat 1 20) (mkRat 1 10) = true ∧
    search_with_query [docA] (.ok [mkRat 1 10]) [] "hello" 3 =
      [⟨docA, mkRat 3 4, .exact⟩] ∧
    ¬ (search_with_query [docA] (.ok [mkRat 1 10]) [] "hello" 3 =
      [⟨docA, mkRat 3 4, .hybrid⟩]) := by
  refine ⟨by decide, by decide, by decide, by decide⟩

/-- C3 (amended): in one search round over documents with pairwise-distinct
file names, a document matched by both the exact pass (entry `e₀`) and the
vector pass (cosine score above the threshold; `k` at least the corpus size
so that truncation cannot drop it) appears exactly once in the round's
result, with score the maximum of the exact score and the vector score,
and with kind `hybrid` exactly when the vector score strictly exceeds the
exact score — when the exact score is greater or equal, the kind remains
`exact` (the code upgrades only on a strict improvement,
`retriever.py:265-271`). -/
theorem c3_merge_amended (docs : List Document) (sims : List ℚ) (dp : List String)
    (query : String) (k i : ℕ) (e₀ : RDoc)
    (hnd : (docs.map Document.file_name).Nodup)
    (hlen : sims.length = docs.length)
    (hk : docs.length ≤ k)
    (hi : i < docs.length)
    (hex : exactEntry (searchTerms query dp) (docs.getD i ⟨"", "", "", ""⟩) = some e₀)
    (htf : qlt (mkRat 1 20) (sims.getD i 0) = true) :
    ((search_with_query docs (.ok sims) dp query k).filter
        (fun x => x.key == (docs.getD i ⟨"", "", "", ""⟩).file_name)).length = 1 ∧
    ∀ r ∈ search_with_query docs (.ok sims) dp query k,
      r.key = (docs.getD i ⟨"", "", "", ""⟩).file_name →
        r.similarity_score = qmax e₀.similarity_score (sims.getD i 0) ∧
        r.match_type =
          (if qlt e₀.similarity_score (sims.getD i 0) then MatchType.hybrid
            else MatchType.exact) := by
  have hEMnd : ((exact_matches docs (searchTerms query dp)).map RDoc.key).Nodup :=
    (exact_matches_keys_sublist docs (searchTerms query dp)).nodup hnd
  have hbase : (exact_matches docs (searchTerms query dp)).foldl upsertExact [] =
      exact_matches docs (searchTerms query dp) := by
    have := foldl_upsertExact_append (exact_matches docs (searchTerms query dp)) []
      (by rw [List.nil_append]; exact hEMnd)
    rwa [List.nil_append] at this
  have he₀k : e₀.key = (docs.getD i ⟨"", "", "", ""⟩).file_name := by
    rw [RDoc.key, (exactEntry_eq _ _ _ hex).1]
  have hMf : (all_matches docs sims dp query k).filter
      (fun x => x.key == (docs.getD i ⟨"", "", "", ""⟩).file_name) =
      [tfidfUpd ⟨docs.getD i ⟨"", "", "", ""⟩, sims.getD i 0, .tfidf⟩ e₀] := by
    rw [all_matches, hbase]
    exact foldl_tfidfStep_filter_one _ _ e₀ (RDoc.key_mk _ _ _) _ _
      (tfidf_matches_filter_key docs sims k i hnd hlen hk hi htf)
      (exact_matches_filter_key (searchTerms query dp) docs i e₀ hnd hi hex)
  have hdec : decide (e₀.key =
      RDoc.key ⟨docs.getD i ⟨"", "", "", ""⟩, sims.getD i 0, .tfidf⟩) = true := by
    rw [decide_eq_true_eq, RDoc.key_mk]
    exact he₀k
  have hu_score : (tfidfUpd ⟨docs.getD i ⟨"", "", "", ""⟩, sims.getD i 0, .tfidf⟩
        e₀).similarity_score = qmax e₀.similarity_score (sims.getD i 0) ∧
      (tfidfUpd ⟨docs.getD i ⟨"", "", "", ""⟩, sims.getD i 0, .tfidf⟩ e₀).match_type =
        (if qlt e₀.similarity_score (sims.getD i 0) then MatchType.hybrid
          else MatchType.exact) := by
    rw [tfidfUpd]
    cases hq : qlt e₀.similarity_score (sims.getD i 0) with
    | true =>
      rw [if_pos (by rw [hdec]; rfl)]
      exact ⟨rfl, rfl⟩
    | false =>
      rw [if_neg (by rw [hdec, Bool.true_and]; exact Bool.false_ne_true)]
      have hle : sims.getD i 0 ≤ e₀.similarity_score := by
        have : ¬ (e₀.similarity_score < sims.getD i 0) := by
          rw [← qlt_iff, hq]
          simp
        exact not_lt.1 this
      refine ⟨(qmax_eq_left _ _ hle).symm, ?_⟩
      rw [(exactEntry_eq _ _ _ hex).2]
      rfl
  have hL : search_with_query docs (.ok sims) dp query k =
      sortByScoreDesc (all_matches docs sims dp query k) := by
    rw [search_with_query]
    exact List.take_of_length_le (by
      rw [sortByScoreDesc, length_isort]
      exact le_trans (all_matches_length_le docs sims dp query k hlen hnd) hk)
  have hLf : (search_with_query docs (.ok sims) dp query k).filter
      (fun x => x.key == (docs.getD i ⟨"", "", "", ""⟩).file_name) =
      [tfidfUpd ⟨docs.getD i ⟨"", "", "", ""⟩, sims.getD i 0, .tfidf⟩ e₀] := by
    rw [hL, sortByScoreDesc]
    refine List.Perm.eq_singleton ?_
    have hperm := (isort_perm descLe (all_matches docs sims dp query k)).filter
      (fun x => x.key == (docs.getD i ⟨"", "", "", ""⟩).file_name)
    rw [hMf] at hperm
    exact hperm
  constructor
  · rw [hLf]
    rfl
  · intro r hr hkey
    have hrf : r ∈ (search_with_query docs (.ok sims) dp query k).filter
        (fun x => x.key == (docs.getD i ⟨"", "", "", ""⟩).file_name) :=
      List.mem_filter.2 ⟨hr, by rw [hkey]; exact beq_self_eq_true _⟩
    rw [hLf, List.mem_singleton] at hrf
    rw [hrf]
    exact ⟨hu_score.1, hu_score.2⟩

theorem c3_merge_amended_witness :
    ((search_with_query [docA] (.ok [mkRat 1 10]) [] "hello" 1).filter
        (fun x => x.key == ([docA].getD 0 ⟨"", "", "", ""⟩).file_name)).length = 1 ∧
    ∀ r ∈ search_with_query [docA] (.ok [mkRat 1 10]) [] "hello" 1,
      r.key = ([docA].getD 0 ⟨"", "", "", ""⟩).file_name →
        r.similarity_score = qmax (⟨docA, mkRat 3 4, .exact⟩ : RDoc).similarity_score
          (([mkRat 1 10] : List ℚ).getD 0 0) ∧
        r.match_type =
          (if qlt (⟨docA, mkRat 3 4, .exact⟩ : RDoc).similarity_score
              (([mkRat 1 10] : List ℚ).getD 0 0) then MatchType.hybrid
            else MatchType.exact) :=
  c3_merge_amended [docA] [mkRat 1 10] [] "hello" 1 0 ⟨docA, mkRat 3 4, .exact⟩
    (by decide) (by decide) (by decide) (by decide) (by decide) (by decide)

/-! ## Claim C4 — tie order of the vector ranking -/

/-- C4 counterexample: two documents with equal cosine scores; the vector
ranking (`np.argsort(...)[::-1]`) lists document index 1 before document
index 0 — the reverse of the original document order, contradicting the
claimed tie-break. -/
theorem c4_counterexample :
    (tfidf_matches [docA, docB] [mkRat 1 2, mkRat 1 2] 2).map RDoc.key =
      ["b.txt", "a.txt"] ∧
    ¬ ((tfidf_matches [docA, docB] [mkRat 1 2, mkRat 1 2] 2).map RDoc.key =
      ["a.txt", "b.txt"]) := by
  constructor
  · decide
  · decide

/-- C4 (amended): the vector-similarity ranking (`topIndices`, the embedding
of `np.argsort(similarities)[::-1][:k]`) lists documents by cosine score
descending, and documents with equal scores appear in **reverse** original
order — descending order is obtained by reversing a stable ascending
argsort, which reverses ties.  The ranking is a pure function of the score
list, hence deterministic for identical input ordering and content. -/
theorem c4_vector_ranking_amended (sims : List ℚ) (k : ℕ) :
    (topIndices sims k).Pairwise (fun i j =>
      sims.getD j 0 < sims.getD i 0 ∨ (sims.getD i 0 = sims.getD j 0 ∧ j < i)) := by
  have h1 : (argsortAsc sims).Pairwise (fun i j => ascLe sims i j = true) :=
    pairwise_isort (ascLe sims) (ascLe_total sims) (ascLe_trans sims) (List.range sims.length)
  have h2 : (argsortAsc sims).Nodup :=
    ((isort_perm (ascLe sims) (List.range sims.length)).nodup_iff).2 (List.nodup_range _)
  have h3 : (argsortAsc sims).Pairwise
      (fun i j => ascLe sims i j = true ∧ i ≠ j) := h1.and h2
  have h4 : (argsortAsc sims).reverse.Pairwise (fun i j =>
      sims.getD j 0 < sims.getD i 0 ∨ (sims.getD i 0 = sims.getD j 0 ∧ j < i)) := by
    rw [List.pairwise_reverse]
    refine h3.imp ?_
    intro a b hab
    rcases hab with ⟨hle, hne⟩
    rw [ascLe, Bool.or_eq_true, Bool.and_eq_true, decide_eq_true_eq, decide_eq_true_eq,
      qlt_iff] at hle
    rcases hle with h | ⟨heq, hab'⟩
    · exact Or.inl h
    · exact Or.inr ⟨heq.symm, lt_of_le_of_ne hab' hne⟩
  rw [topIndices]
  exact h4.sublist (List.take_sublist _ _)

/-! ## Claim C5 — retrieval monotonicity in `k`

The development characterizes membership in the truncated sorted result via
a rank function (strictly-better count plus earlier-ties count), relates the
merged match lists at two different `k` values, and shows the rank grows by
at most the number of additional TF-IDF candidates. -/

/-- Position of the (first) entry with merge key `K`. -/
def kpos (l : List RDoc) (K : String) : ℕ := l.findIdx (fun r => r.key == K)

/-- Rank of entry `x` in the stable descending sort of `L`: the number of
entries with strictly higher score, plus the number of equal-score entries
that precede `x` in `L`. -/
def keyRank (L : List RDoc) (x : RDoc) : ℕ :=
  L.countP (fun y => qlt x.similarity_score y.similarity_score) +
    (L.takeWhile (fun y => !(y.key == x.key))).countP
      (fun y => decide (y.similarity_score = x.similarity_score))

theorem countP_pair_le {α : Type} (p1' p2' p1 p2 p3 : α → Bool) (l : List α)
    (h : ∀ a ∈ l,
      ((if p1' a = true then 1 else 0) + (if p2' a = true then 1 else 0) : ℕ) ≤
        (if p1 a = true then 1 else 0) + (if p2 a = true then 1 else 0) +
          (if p3 a = true then 1 else 0)) :
    l.countP p1' + l.countP p2' ≤ l.countP p1 + l.countP p2 + l.countP p3 := by
  induction l with
  | nil => simp
  | cons a as ih =>
    have ha := h a (by simp)
    have ih' := ih (fun b hb => h b (by simp [hb]))
    rw [List.countP_cons, List.countP_cons, List.countP_cons, List.countP_cons,
      List.countP_cons]
    omega

theorem countP_single_le {α : Type} (p' p q : α → Bool) (l : List α)
    (h : ∀ a ∈ l, p' a = true → (p a = true ∨ q a = true)) :
    l.countP p' ≤ l.countP p + l.countP q := by
  induction l with
  | nil => simp
  | cons a as ih =>
    have ha := h a (by simp)
    have ih' := ih (fun b hb => h b (by simp [hb]))
    rw [List.countP_cons, List.countP_cons, List.countP_cons]
    by_cases hp : p' a = true
    · rcases ha hp with h1 | h1 <;> simp [hp, h1] <;> omega
    · simp [hp]
      omega

theorem insertLe_eq_takeWhile {α : Type} (le : α → α → Bool) (x : α) :
    ∀ l : List α, insertLe le x l =
      l.takeWhile (fun y => !(le x y)) ++ x :: l.dropWhile (fun y => !(le x y)) := by
  intro l
  induction l with
  | nil => rfl
  | cons y ys ih =>
    by_cases h : le x y
    · rw [insertLe, if_pos h, List.takeWhile_cons, List.dropWhile_cons]
      simp [h]
    · have hb : le x y = false := Bool.eq_false_iff.2 h
      rw [insertLe, if_neg h, List.takeWhile_cons, List.dropWhile_cons]
      simp only [hb, Bool.not_false, if_true, ite_true]
      rw [List.cons_append, ih]

theorem sorted_takeWhile_countP {α : Type} (le : α → α → Bool) (p : α → Bool) :
    ∀ l : List α, l.Pairwise (fun a b => le a b = true) →
      (∀ a b, le a b = true → p b = true → p a = true) →
      (l.takeWhile p).length = l.countP p := by
  intro l
  induction l with
  | nil => intro _ _; rfl
  | cons a as ih =>
    intro hl hcl
    have hpw := List.pairwise_cons.1 hl
    cases hpa : p a with
    | true =>
      rw [List.takeWhile_cons, hpa, List.countP_cons, hpa]
      simp only [if_true, List.length_cons]
      rw [ih hpw.2 hcl]
    | false =>
      rw [List.takeWhile_cons, hpa, List.countP_cons, hpa]
      simp only [Bool.false_eq_true, if_false, List.length_nil]
      have : as.countP p = 0 := by
        rw [List.countP_eq_zero]
        intro b hb hpb
        have : p a = true := hcl a b (hpw.1 b hb) hpb
        rw [hpa] at this
        exact Bool.false_ne_true this
      omega

theorem sorted_mem_takeWhile {α : Type} (le : α → α → Bool) (p : α → Bool)
    (l : List α) (hl : l.Pairwise (fun a b => le a b = true))
    (hcl : ∀ a b, le a b = true → p b = true → p a = true)
    (x : α) (hx : x ∈ l) (hpx : p x = true) : x ∈ l.takeWhile p := by
  induction l with
  | nil => simp at hx
  | cons a as ih =>
    have hpw := List.pairwise_cons.1 hl
    rcases List.mem_cons.1 hx with rfl | hx'
    · rw [List.takeWhile_cons, hpx]
      simp
    · have hpa : p a = true := hcl a x (hpw.1 x hx') hpx
      rw [List.takeWhile_cons, hpa]
      simp only [if_true]
      exact List.mem_cons_of_mem a (ih hpw.2 hx')

theorem kpos_append_of_mem (A B : List RDoc) (K : String)
    (h : ∃ a ∈ A, (a.key == K) = true) : kpos (A ++ B) K = kpos A K := by
  rw [kpos, List.findIdx_append, if_pos (List.findIdx_lt_length_of_exists h)]
  rfl

theorem kpos_append_of_not_mem (A B : List RDoc) (K : String)
    (h : ∀ a ∈ A, (a.key == K) = false) : kpos (A ++ B) K = A.length + kpos B K := by
  have hA : A.findIdx (fun r => r.key == K) = A.length := List.findIdx_eq_length.2 h
  rw [kpos, List.findIdx_append, hA, if_neg (lt_irrefl _)]
  rw [kpos]
  omega

theorem key_mem_take_iff (K : String) :
    ∀ (S : List RDoc) (m : ℕ), (∃ r ∈ S, (r.key == K) = true) →
      ((∃ r ∈ S.take m, (r.key == K) = true) ↔ kpos S K < m) := by
  intro S
  induction S with
  | nil => intro m h; simp at h
  | cons a S' ih =>
    intro m hpresent
    cases m with
    | zero => simp [kpos]
    | succ m' =>
      rw [List.take_succ_cons]
      cases hpa : (a.key == K) with
      | true =>
        constructor
        · intro _
          rw [kpos, List.findIdx_cons, hpa]
          simp
        · intro _
          exact ⟨a, by simp, hpa⟩
      | false =>
        have hpres' : ∃ r ∈ S', (r.key == K) = true := by
          rcases hpresent with ⟨r, hr, hrk⟩
          rcases List.mem_cons.1 hr with rfl | hr'
          · rw [hpa] at hrk; exact absurd hrk (by simp)
          · exact ⟨r, hr', hrk⟩
        rw [kpos, List.findIdx_cons, hpa]
        simp only [cond_false]
        constructor
        · intro ⟨r, hr, hrk⟩
          rcases List.mem_cons.1 hr with rfl | hr'
          · rw [hpa] at hrk; exact absurd hrk (by simp)
          · have := (ih m' hpres').1 ⟨r, hr', hrk⟩
            rw [kpos] at this
            omega
        · intro hlt
          have : kpos S' K < m' := by rw [kpos]; omega
          rcases (ih m' hpres').2 this with ⟨r, hr, hrk⟩
          exact ⟨r, List.mem_cons_of_mem a hr, hrk⟩

theorem qlt_self (s : ℚ) : qlt s s = false := by
  cases h : qlt s s with
  | false => rfl
  | true => exact absurd ((qlt_iff s s).1 h) (lt_irrefl s)

theorem not_descLe_eq_qlt (a : RDoc) :
    (fun y : RDoc => !(descLe a y)) =
      (fun y : RDoc => qlt a.similarity_score y.similarity_score) := by
  funext y
  by_cases h : y.similarity_score ≤ a.similarity_score
  · have h1 : descLe a y = true := (qle_iff _ _).2 h
    have h2 : qlt a.similarity_score y.similarity_score = false := by
      cases hq : qlt a.similarity_score y.similarity_score with
      | false => rfl
      | true => exact absurd ((qlt_iff _ _).1 hq) (not_lt.2 h)
    rw [h1, h2]
    rfl
  · have h1 : descLe a y = false := by
      cases hd : descLe a y with
      | false => rfl
      | true => exact absurd ((qle_iff _ _).1 hd) h
    have h2 : qlt a.similarity_score y.similarity_score = true :=
      (qlt_iff _ _).2 (not_le.1 h)
    rw [h1, h2]
    rfl

theorem not_descLe_eq_qlt_app (a y : RDoc) :
    (!(descLe a y)) = qlt a.similarity_score y.similarity_score :=
  congrFun (not_descLe_eq_qlt a) y

theorem qlt_asymm_false (u v : ℚ) (h : u < v) : qlt v u = false := by
  cases hq : qlt v u with
  | false => rfl
  | true => exact absurd ((qlt_iff _ _).1 hq) (not_lt.2 h.le)

theorem beq_key_false_of_ne (u v : String) (h : u ≠ v) : (u == v) = false := by
  cases hb : (u == v) with
  | false => rfl
  | true => exact absurd (beq_iff_eq.1 hb) h

theorem kpos_isort_eq_keyRank :
    ∀ (L : List RDoc), (L.map RDoc.key).Nodup → ∀ x ∈ L,
      kpos (isort descLe L) x.key = keyRank L x := by
  intro L
  induction L with
  | nil => intro _ x hx; simp at hx
  | cons a l ih =>
    intro hnd x hx
    rw [List.map_cons] at hnd
    have hak : a.key ∉ l.map RDoc.key := (List.nodup_cons.1 hnd).1
    have hndl : (l.map RDoc.key).Nodup := (List.nodup_cons.1 hnd).2
    have hS := isort_perm descLe l
    have hsorted := pairwise_isort descLe descLe_total descLe_trans l
    have hSkeys : ((isort descLe l).map RDoc.key).Nodup :=
      ((hS.map RDoc.key).nodup_iff).2 hndl
    have hcl : ∀ y z : RDoc, descLe y z = true →
        (!(descLe a z)) = true → (!(descLe a y)) = true := by
      intro y z hyz hz
      rw [not_descLe_eq_qlt_app, qlt_iff] at hz ⊢
      rw [descLe, qle_iff] at hyz
      exact lt_of_lt_of_le hz hyz
    have hsplit : isort descLe (a :: l) =
        ((isort descLe l).takeWhile (fun y => !(descLe a y))) ++
          a :: ((isort descLe l).dropWhile (fun y => !(descLe a y))) := by
      rw [isort]
      exact insertLe_eq_takeWhile descLe a (isort descLe l)
    have hAsub : ∀ r ∈ (isort descLe l).takeWhile (fun y => !(descLe a y)),
        r ∈ isort descLe l := by
      intro r hr
      have h0 := List.takeWhile_append_dropWhile (fun y => !(descLe a y)) (isort descLe l)
      rw [← h0]
      exact List.mem_append_left _ hr
    have hAlen : ((isort descLe l).takeWhile (fun y => !(descLe a y))).length =
        l.countP (fun y => qlt a.similarity_score y.similarity_score) := by
      rw [sorted_takeWhile_countP descLe _ (isort descLe l) hsorted hcl]
      rw [hS.countP_eq, not_descLe_eq_qlt]
    rcases List.mem_cons.1 hx with rfl | hx'
    · have hnoA : ∀ r ∈ (isort descLe l).takeWhile (fun y => !(descLe x y)),
          (r.key == x.key) = false := by
        intro r hr
        have hrl : r ∈ l := hS.mem_iff.1 (hAsub r hr)
        cases hb : (r.key == x.key) with
        | false => rfl
        | true =>
          exact absurd ((beq_iff_eq.1 hb) ▸ List.mem_map_of_mem RDoc.key hrl) hak
      rw [hsplit, kpos_append_of_not_mem _ _ _ hnoA]
      have hk0 : kpos (x :: (isort descLe l).dropWhile (fun y => !(descLe x y))) x.key
          = 0 := by
        rw [kpos, List.findIdx_cons, beq_self_eq_true]
        rfl
      rw [hk0, hAlen]
      rw [keyRank, List.takeWhile_cons]
      have hkk : (!(x.key == x.key)) = false := by rw [beq_self_eq_true]; rfl
      rw [hkk]
      simp only [Bool.false_eq_true, if_false, List.takeWhile_nil, List.countP_nil]
      rw [List.countP_cons, qlt_self]
      simp
    · have hxna : x.key ≠ a.key := fun hcontra =>
        hak (hcontra ▸ List.mem_map_of_mem RDoc.key hx')
      have hxS : x ∈ isort descLe l := hS.mem_iff.2 hx'
      have hIH := ih hndl x hx'
      have hkb : (!(a.key == x.key)) = true := by
        rw [beq_key_false_of_ne a.key x.key (Ne.symm hxna)]
        rfl
      by_cases hpx : (!(descLe a x)) = true
      · have hxA : x ∈ (isort descLe l).takeWhile (fun y => !(descLe a y)) :=
          sorted_mem_takeWhile descLe _ (isort descLe l) hsorted hcl x hxS hpx
        have hmemA : ∃ r ∈ (isort descLe l).takeWhile (fun y => !(descLe a y)),
            (r.key == x.key) = true := ⟨x, hxA, beq_self_eq_true _⟩
        rw [hsplit, kpos_append_of_mem _ _ _ hmemA]
        have hSdecomp : kpos (isort descLe l) x.key =
            kpos ((isort descLe l).takeWhile (fun y => !(descLe a y))) x.key := by
          conv_lhs => rw [← List.takeWhile_append_dropWhile
            (fun y => !(descLe a y)) (isort descLe l)]
          exact kpos_append_of_mem _ _ _ hmemA
        rw [← hSdecomp, hIH]
        have hlt' : a.similarity_score < x.similarity_score := by
          rw [not_descLe_eq_qlt_app] at hpx
          exact (qlt_iff _ _).1 hpx
        rw [keyRank, keyRank, List.countP_cons, List.takeWhile_cons, hkb]
        simp only [if_true, List.countP_cons]
        rw [qlt_asymm_false _ _ hlt']
        have hne : (decide (a.similarity_score = x.similarity_score)) = false := by
          cases hd : decide (a.similarity_score = x.similarity_score) with
          | false => rfl
          | true => exact absurd (of_decide_eq_true hd) (ne_of_lt hlt')
        rw [hne]
        simp
      · have hdax : descLe a x = true := by
          cases hb : descLe a x with
          | true => rfl
          | false => exact absurd (by rw [hb]; rfl) hpx
        have hxle : x.similarity_score ≤ a.similarity_score := by
          rw [descLe, qle_iff] at hdax
          exact hdax
        have hxB : ∀ r ∈ (isort descLe l).takeWhile (fun y => !(descLe a y)),
            (r.key == x.key) = false := by
          intro r hr
          cases hb : (r.key == x.key) with
          | false => rfl
          | true =>
            have hrx : r = x :=
              List.inj_on_of_nodup_map hSkeys (hAsub r hr) hxS (beq_iff_eq.1 hb)
            have hxmem : x ∈ (isort descLe l).takeWhile (fun y => !(descLe a y)) :=
              hrx ▸ hr
            exact absurd (List.mem_takeWhile_imp hxmem) hpx
        rw [hsplit, kpos_append_of_not_mem _ _ _ hxB]
        have hkpcons : kpos
            (a :: (isort descLe l).dropWhile (fun y => !(descLe a y))) x.key =
            kpos ((isort descLe l).dropWhile (fun y => !(descLe a y))) x.key + 1 := by
          rw [kpos, kpos, List.findIdx_cons,
            beq_key_false_of_ne a.key x.key (Ne.symm hxna)]
          rfl
        rw [hkpcons]
        have hSdecomp : kpos (isort descLe l) x.key =
            ((isort descLe l).takeWhile (fun y => !(descLe a y))).length +
              kpos ((isort descLe l).dropWhile (fun y => !(descLe a y))) x.key := by
          conv_lhs => rw [← List.takeWhile_append_dropWhile
            (fun y => !(descLe a y)) (isort descLe l)]
          exact kpos_append_of_not_mem _ _ _ hxB
        have hexp : keyRank (a :: l) x = keyRank l x + 1 := by
          rw [keyRank, keyRank, List.countP_cons, List.takeWhile_cons, hkb]
          simp only [if_true]
          rw [List.countP_cons]
          rcases lt_or_eq_of_le hxle with hlt | heq
          · rw [show qlt x.similarity_score a.similarity_score = true from
              (qlt_iff _ _).2 hlt]
            rw [show (decide (a.similarity_score = x.similarity_score)) = false by
              cases hd : decide (a.similarity_score = x.similarity_score) with
              | false => rfl
              | true => exact absurd (of_decide_eq_true hd) (ne_of_gt hlt)]
            simp only [if_true, Bool.false_eq_true, if_false]
            omega
          · rw [heq, qlt_self]
            rw [show (decide (a.similarity_score = a.similarity_score)) = true from
              decide_eq_true rfl]
            simp only [Bool.false_eq_true, if_false, if_true]
            omega
        rw [hexp]
        rw [hIH] at hSdecomp
        omega

theorem key_mem_take_isort_iff (L : List RDoc) (x : RDoc) (m : ℕ)
    (hnd : (L.map RDoc.key).Nodup) (hx : x ∈ L) :
    (∃ r ∈ (isort descLe L).take m, (r.key == x.key) = true) ↔ keyRank L x < m := by
  rw [← kpos_isort_eq_keyRank L hnd x hx]
  exact key_mem_take_iff x.key (isort descLe L) m
    ⟨x, (mem_isort _ _ _).2 hx, beq_self_eq_true _⟩

theorem takeWhile_append_of_exists_not {α : Type} (p : α → Bool) :
    ∀ (A B : List α), (∃ a ∈ A, p a = false) →
      (A ++ B).takeWhile p = A.takeWhile p := by
  intro A
  induction A with
  | nil => intro B h; simp at h
  | cons a as ih =>
    intro B h
    rw [List.cons_append, List.takeWhile_cons, List.takeWhile_cons]
    cases hpa : p a with
    | false => simp
    | true =>
      simp only [if_true]
      rcases h with ⟨b, hb, hpb⟩
      rcases List.mem_cons.1 hb with rfl | hb'
      · rw [hpa] at hpb; exact absurd hpb (by simp)
      · rw [ih B ⟨b, hb', hpb⟩]

theorem keyRank_map_append_le (L E : List RDoc) (u : RDoc → RDoc) (x : RDoc)
    (hx : x ∈ L)
    (hukey : ∀ y, (u y).key = y.key)
    (hups : ∀ y, y.similarity_score ≤ (u y).similarity_score) :
    keyRank (L.map u ++ E) (u x) ≤
      keyRank L x +
        L.countP (fun y => decide ((u y).similarity_score ≠ y.similarity_score)) +
        E.length := by
  have hpfun : (fun y : RDoc => !(y.key == (u x).key)) ∘ u =
      fun y : RDoc => !(y.key == x.key) := by
    funext y
    show (!((u y).key == (u x).key)) = !(y.key == x.key)
    rw [hukey y, hukey x]
  have hTW : (L.map u ++ E).takeWhile (fun y => !(y.key == (u x).key)) =
      (L.takeWhile (fun y => !(y.key == x.key))).map u := by
    rw [takeWhile_append_of_exists_not _ (L.map u) E
      ⟨u x, List.mem_map_of_mem u hx, by rw [beq_self_eq_true]; rfl⟩]
    rw [List.takeWhile_map, hpfun]
  set TW := L.takeWhile (fun y => !(y.key == x.key)) with hTWdef
  set DW := L.dropWhile (fun y => !(y.key == x.key)) with hDWdef
  have hLsplit : L = TW ++ DW := (List.takeWhile_append_dropWhile _ _).symm
  have hTWsub : ∀ y ∈ TW, y ∈ L := by
    intro y hy
    rw [hLsplit]
    exact List.mem_append_left _ hy
  have hDWsub : ∀ y ∈ DW, y ∈ L := by
    intro y hy
    rw [hLsplit]
    exact List.mem_append_right _ hy
  rw [keyRank, keyRank, hTW]
  rw [List.countP_append, List.countP_map, List.countP_map]
  rw [← hTWdef]
  have hfact3 : ∀ y : RDoc,
      ¬ (qlt (u x).similarity_score (u y).similarity_score = true ∧
        decide ((u y).similarity_score = (u x).similarity_score) = true) := by
    rintro y ⟨h1, h2⟩
    rw [qlt_iff] at h1
    exact absurd (of_decide_eq_true h2) (ne_of_gt h1)
  have hfact1 : ∀ y : RDoc,
      qlt (u x).similarity_score (u y).similarity_score = true →
        qlt x.similarity_score y.similarity_score = true ∨
          decide ((u y).similarity_score ≠ y.similarity_score) = true := by
    intro y h1
    by_cases hch : (u y).similarity_score = y.similarity_score
    · left
      rw [qlt_iff] at h1 ⊢
      calc x.similarity_score ≤ (u x).similarity_score := hups x
        _ < (u y).similarity_score := h1
        _ = y.similarity_score := hch
    · right
      exact decide_eq_true hch
  have hfact2 : ∀ y : RDoc,
      decide ((u y).similarity_score = (u x).similarity_score) = true →
        qlt x.similarity_score y.similarity_score = true ∨
          decide (y.similarity_score = x.similarity_score) = true ∨
          decide ((u y).similarity_score ≠ y.similarity_score) = true := by
    intro y h1
    have h1' : (u y).similarity_score = (u x).similarity_score := of_decide_eq_true h1
    by_cases hch : (u y).similarity_score = y.similarity_score
    · by_cases hchx : (u x).similarity_score = x.similarity_score
      · right; left
        exact decide_eq_true (by rw [← hch, h1', hchx])
      · left
        rw [qlt_iff]
        have hxlt : x.similarity_score < (u x).similarity_score :=
          lt_of_le_of_ne (hups x) (fun hcontra => hchx hcontra.symm)
        calc x.similarity_score < (u x).similarity_score := hxlt
          _ = (u y).similarity_score := h1'.symm
          _ = y.similarity_score := hch
    · right; right
      exact decide_eq_true hch
  have hTWbound :
      TW.countP ((fun z => qlt (u x).similarity_score z.similarity_score) ∘ u) +
        TW.countP ((fun z => decide (z.similarity_score = (u x).similarity_score)) ∘ u) ≤
      TW.countP (fun y => qlt x.similarity_score y.similarity_score) +
        TW.countP (fun y => decide (y.similarity_score = x.similarity_score)) +
        TW.countP (fun y => decide ((u y).similarity_score ≠ y.similarity_score)) := by
    refine countP_pair_le _ _ _ _ _ TW ?_
    intro y _
    by_cases h1 : qlt (u x).similarity_score (u y).similarity_score = true
    · by_cases h2 : decide ((u y).similarity_score = (u x).similarity_score) = true
      · exact absurd ⟨h1, h2⟩ (hfact3 y)
      · rcases hfact1 y h1 with h | h <;> simp [h1, h2, h] <;> omega
    · by_cases h2 : decide ((u y).similarity_score = (u x).similarity_score) = true
      · rcases hfact2 y h2 with h | h | h <;> simp [h1, h2, h] <;> omega
      · simp [h1, h2]
  have hDWbound :
      DW.countP ((fun z => qlt (u x).similarity_score z.similarity_score) ∘ u) ≤
      DW.countP (fun y => qlt x.similarity_score y.similarity_score) +
        DW.countP (fun y => decide ((u y).similarity_score ≠ y.similarity_score)) := by
    refine countP_single_le _ _ _ DW ?_
    intro y _ h1
    exact hfact1 y h1
  have hEbound : E.countP
      (fun z => qlt (u x).similarity_score z.similarity_score) ≤ E.length :=
    List.countP_le_length _
  have hsplit_strict :
      L.countP ((fun z => qlt (u x).similarity_score z.similarity_score) ∘ u) =
        TW.countP ((fun z => qlt (u x).similarity_score z.similarity_score) ∘ u) +
          DW.countP ((fun z => qlt (u x).similarity_score z.similarity_score) ∘ u) := by
    conv_lhs => rw [hLsplit]
    exact List.countP_append _ _ _
  have hsplit_strict2 :
      L.countP (fun y => qlt x.similarity_score y.similarity_score) =
        TW.countP (fun y => qlt x.similarity_score y.similarity_score) +
          DW.countP (fun y => qlt x.similarity_score y.similarity_score) := by
    conv_lhs => rw [hLsplit]
    exact List.countP_append _ _ _
  have hsplit_chg :
      L.countP (fun y => decide ((u y).similarity_score ≠ y.similarity_score)) =
        TW.countP (fun y => decide ((u y).similarity_score ≠ y.similarity_score)) +
          DW.countP (fun y => decide ((u y).similarity_score ≠ y.similarity_score)) := by
    conv_lhs => rw [hLsplit]
    exact List.countP_append _ _ _
  omega

theorem tfidfUpd_score_le (d e : RDoc) :
    e.similarity_score ≤ (tfidfUpd d e).similarity_score := by
  rw [tfidfUpd]
  by_cases h : e.key = d.key && qlt e.similarity_score d.similarity_score
  · rw [if_pos h]
    show e.similarity_score ≤ qmax e.similarity_score d.similarity_score
    rw [qmax_eq]
    exact le_max_left _ _
  · rw [if_neg h]

theorem tfidfUpd_doc (d e : RDoc) : (tfidfUpd d e).doc = e.doc := by
  rw [tfidfUpd]
  by_cases h : e.key = d.key && qlt e.similarity_score d.similarity_score
  · rw [if_pos h]
  · rw [if_neg h]

theorem countP_key_le_one :
    ∀ (M : List RDoc) (K : String), (M.map RDoc.key).Nodup →
      M.countP (fun y => decide (y.key = K)) ≤ 1 := by
  intro M
  induction M with
  | nil => intro K _; simp
  | cons a as ih =>
    intro K hnd
    rw [List.map_cons] at hnd
    rw [List.countP_cons]
    by_cases ha : a.key = K
    · have hzero : as.countP (fun y => decide (y.key = K)) = 0 := by
        rw [List.countP_eq_zero]
        intro b hb hbd
        have hbK : b.key = K := of_decide_eq_true hbd
        exact (List.nodup_cons.1 hnd).1
          ((ha.trans hbK.symm) ▸ List.mem_map_of_mem RDoc.key hb)
      simp [ha, hzero]
    · have hIH := ih K (List.nodup_cons.1 hnd).2
      have hdf : (decide (a.key = K)) = false := by
        cases hd : decide (a.key = K) with
        | false => rfl
        | true => exact absurd (of_decide_eq_true hd) ha
      rw [hdf]
      simpa using hIH

theorem foldl_tfidfStep_decomp :
    ∀ (Δ M : List RDoc) (u : RDoc → RDoc) (E : List RDoc),
      (M.map RDoc.key).Nodup →
      (∀ y, (u y).key = y.key) →
      ∃ (u' : RDoc → RDoc) (E' : List RDoc),
        Δ.foldl tfidfStep (M.map u ++ E) = M.map u' ++ E' ∧
        (∀ y, (u' y).key = (u y).key) ∧
        (∀ y, (u y).similarity_score ≤ (u' y).similarity_score) ∧
        (∀ y, (u' y).doc = (u y).doc) ∧
        M.countP (fun y =>
            decide ((u' y).similarity_score ≠ (u y).similarity_score)) +
          E'.length ≤ Δ.length + E.length := by
  intro Δ
  induction Δ with
  | nil =>
    intro M u E hnd huk
    refine ⟨u, E, rfl, fun y => rfl, fun y => le_refl _, fun y => rfl, ?_⟩
    have hz : M.countP (fun y =>
        decide ((u y).similarity_score ≠ (u y).similarity_score)) = 0 := by
      rw [List.countP_eq_zero]
      intro b _
      simp
    rw [hz]
    simp
  | cons d Δ' ih =>
    intro M u E hnd huk
    rw [List.foldl_cons]
    by_cases hany : (M.map u ++ E).any (fun e => e.key = d.key)
    · have hstep : tfidfStep (M.map u ++ E) d =
          M.map (tfidfUpd d ∘ u) ++ E.map (tfidfUpd d) := by
        rw [tfidfStep_eq, if_pos hany, List.map_append, List.map_map]
      rw [hstep]
      have huk1 : ∀ y, ((tfidfUpd d ∘ u) y).key = y.key := by
        intro y
        show (tfidfUpd d (u y)).key = y.key
        rw [tfidfUpd_key, huk y]
      obtain ⟨u', E', heq, hk, hs, hd2, hcnt⟩ :=
        ih M (tfidfUpd d ∘ u) (E.map (tfidfUpd d)) hnd huk1
      refine ⟨u', E', heq, ?_, ?_, ?_, ?_⟩
      · intro y
        rw [hk y]
        show (tfidfUpd d (u y)).key = (u y).key
        exact tfidfUpd_key d (u y)
      · intro y
        exact le_trans (tfidfUpd_score_le d (u y)) (hs y)
      · intro y
        rw [hd2 y]
        show (tfidfUpd d (u y)).doc = (u y).doc
        exact tfidfUpd_doc d (u y)
      · have htri : M.countP (fun y =>
            decide ((u' y).similarity_score ≠ (u y).similarity_score)) ≤
            M.countP (fun y => decide ((u' y).similarity_score ≠
              ((tfidfUpd d ∘ u) y).similarity_score)) +
            M.countP (fun y => decide (((tfidfUpd d ∘ u) y).similarity_score ≠
              (u y).similarity_score)) := by
          refine countP_single_le _ _ _ M ?_
          intro y _ hy
          have hy' : (u' y).similarity_score ≠ (u y).similarity_score :=
            of_decide_eq_true hy
          by_cases hmid : ((tfidfUpd d ∘ u) y).similarity_score =
              (u y).similarity_score
          · left
            exact decide_eq_true (fun hcontra => hy' (hcontra.trans hmid))
          · right
            exact decide_eq_true hmid
        have hhit : M.countP (fun y =>
            decide (((tfidfUpd d ∘ u) y).similarity_score ≠
              (u y).similarity_score)) ≤
            M.countP (fun y => decide (y.key = d.key)) := by
          refine List.countP_mono_left ?_
          intro y _ hy
          have hy' : (tfidfUpd d (u y)).similarity_score ≠ (u y).similarity_score :=
            of_decide_eq_true hy
          refine decide_eq_true ?_
          by_contra hk2
          have hkne : (u y).key ≠ d.key := by
            rw [huk y]
            exact hk2
          exact hy' (by rw [tfidfUpd_of_key_ne d (u y) hkne])
        have hone := countP_key_le_one M d.key hnd
        have hlen : (E.map (tfidfUpd d)).length = E.length := List.length_map E _
        rw [hlen] at hcnt
        rw [List.length_cons]
        omega
    · have hstep : tfidfStep (M.map u ++ E) d = M.map u ++ (E ++ [d]) := by
        rw [tfidfStep_eq, if_neg hany, List.append_assoc]
      rw [hstep]
      obtain ⟨u', E', heq, hk, hs, hd2, hcnt⟩ := ih M u (E ++ [d]) hnd huk
      refine ⟨u', E', heq, hk, hs, hd2, ?_⟩
      simp only [List.length_append, List.length_cons, List.length_nil] at hcnt ⊢
      omega

theorem foldl_tfidfStep_decomp_id (Δ M : List RDoc)
    (hnd : (M.map RDoc.key).Nodup) :
    ∃ (u' : RDoc → RDoc) (E' : List RDoc),
      Δ.foldl tfidfStep M = M.map u' ++ E' ∧
      (∀ y, (u' y).key = y.key) ∧
      (∀ y, y.similarity_score ≤ (u' y).similarity_score) ∧
      (∀ y, (u' y).doc = y.doc) ∧
      M.countP (fun y =>
          decide ((u' y).similarity_score ≠ y.similarity_score)) +
        E'.length ≤ Δ.length := by
  obtain ⟨u', E', heq, hk, hs, hd2, hcnt⟩ :=
    foldl_tfidfStep_decomp Δ M id [] hnd (fun y => rfl)
  rw [List.map_id, List.append_nil] at heq
  refine ⟨u', E', heq, hk, hs, hd2, ?_⟩
  simpa using hcnt

theorem upsertExact_keys_nodup (m : List RDoc) (r : RDoc)
    (h : (m.map RDoc.key).Nodup) : ((upsertExact m r).map RDoc.key).Nodup := by
  rw [upsertExact]
  by_cases hany : m.any (fun e => e.key = r.key)
  · rw [if_pos hany, List.map_map]
    have hcomp : (RDoc.key ∘ fun e => if e.key = r.key then r else e) = RDoc.key := by
      funext e
      show (if e.key = r.key then r else e).key = e.key
      by_cases he : e.key = r.key
      · rw [if_pos he, he]
      · rw [if_neg he]
    rw [hcomp]
    exact h
  · rw [if_neg hany, List.map_append, List.nodup_append]
    refine ⟨h, List.nodup_singleton _, ?_⟩
    intro x hx hr2
    rcases List.mem_map.1 hx with ⟨e, he, rfl⟩
    have := (any_key_eq_false_iff m r.key).1 (Bool.eq_false_iff.2 hany) e he
    simp only [List.map_cons, List.map_nil, List.mem_singleton] at hr2
    exact this hr2

theorem foldl_upsertExact_keys_nodup :
    ∀ (rs m : List RDoc), (m.map RDoc.key).Nodup →
      ((rs.foldl upsertExact m).map RDoc.key).Nodup := by
  intro rs
  induction rs with
  | nil => intro m h; exact h
  | cons r rest ih =>
    intro m h
    rw [List.foldl_cons]
    exact ih _ (upsertExact_keys_nodup m r h)

/-- The merged match dict always has pairwise-distinct keys: it models a
Python dict keyed by file name. -/
theorem all_matches_keys_nodup (docs : List Document) (sims : List ℚ) (dp : List String)
    (query : String) (k : ℕ) :
    ((all_matches docs sims dp query k).map RDoc.key).Nodup := by
  rw [all_matches]
  exact foldl_tfidfStep_keys_nodup _ _ (foldl_upsertExact_keys_nodup _ [] (by simp))

/-- Raising `top_k` only appends TF-IDF candidates: the candidate list for
`k' ≥ k` is the one for `k` followed by at most `k' - k` extra entries
(`[:actual_k]` takes a longer prefix of the same reversed argsort). -/
theorem tfidf_matches_prefix (docs : List Document) (sims : List ℚ) (k k' : ℕ)
    (hkk : k ≤ k') :
    ∃ Δ : List RDoc, tfidf_matches docs sims k' = tfidf_matches docs sims k ++ Δ ∧
      Δ.length ≤ k' - k := by
  refine ⟨(((argsortAsc sims).reverse.take (min k' docs.length)).drop
      (min k docs.length)).filterMap (tfidfEntry docs sims), ?_, ?_⟩
  · rw [tfidf_matches, tfidf_matches, topIndices, topIndices, ← List.filterMap_append]
    congr 1
    conv_lhs => rw [← List.take_append_drop (min k docs.length)
      ((argsortAsc sims).reverse.take (min k' docs.length))]
    congr 1
    rw [List.take_take]
    congr 1
    omega
  · refine le_trans (List.length_filterMap_le _ _) ?_
    rw [List.length_drop, List.length_take]
    omega

theorem tfidfStep_length_ge (m : List RDoc) (r : RDoc) :
    m.length ≤ (tfidfStep m r).length := by
  rw [tfidfStep_eq]
  by_cases hany : m.any (fun e => e.key = r.key)
  · rw [if_pos hany, List.length_map]
  · rw [if_neg hany, List.length_append]
    omega

theorem tfidfStep_ne_nil (m : List RDoc) (r : RDoc) : tfidfStep m r ≠ [] := by
  rw [tfidfStep_eq]
  by_cases hany : m.any (fun e => e.key = r.key)
  · rw [if_pos hany]
    cases m with
    | nil => simp at hany
    | cons a t => simp
  · rw [if_neg hany]
    simp

theorem foldl_tfidfStep_length_ge :
    ∀ (TM m : List RDoc), m.length ≤ (TM.foldl tfidfStep m).length := by
  intro TM
  induction TM with
  | nil => intro m; exact le_refl _
  | cons t ts ih =>
    intro m
    rw [List.foldl_cons]
    exact le_trans (tfidfStep_length_ge m t) (ih _)

/-- The fold that merges TF-IDF candidates into the dict yields the empty
dict only when both inputs were empty: updating never shrinks the dict and
inserting into an empty dict makes it non-empty. -/
theorem foldl_tfidfStep_eq_nil_iff (TM m : List RDoc) :
    TM.foldl tfidfStep m = [] ↔ m = [] ∧ TM = [] := by
  cases TM with
  | nil => simp
  | cons t ts =>
    simp only [List.foldl_cons]
    constructor
    · intro h
      have h1 := foldl_tfidfStep_length_ge ts (tfidfStep m t)
      rw [h] at h1
      simp only [List.length_nil, Nat.le_zero] at h1
      exact absurd (List.length_eq_zero.1 h1) (tfidfStep_ne_nil m t)
    · rintro ⟨_, h⟩
      exact absurd h (by simp)

/-- If the highest-similarity candidate already fails the `0.05` threshold,
no later candidate can pass it: the reversed argsort is descending. -/
theorem tm_empty_mono (docs : List Document) (sims : List ℚ) (k k' : ℕ)
    (hk : 1 ≤ k) (h : tfidf_matches docs sims k = []) :
    tfidf_matches docs sims k' = [] := by
  rw [tfidf_matches, topIndices, List.filterMap_eq_nil] at h ⊢
  intro i hi
  cases hR : (argsortAsc sims).reverse with
  | nil =>
    rw [hR] at hi
    simp at hi
  | cons h0 t =>
    by_cases hL : docs.length = 0
    · rw [hL] at hi
      simp at hi
    · have hm1 : 1 ≤ min k docs.length := by omega
      have hh0 : h0 ∈ ((argsortAsc sims).reverse).take (min k docs.length) := by
        rw [hR]
        cases hmk : min k docs.length with
        | zero => omega
        | succ n => simp
      have hent0 := h h0 hh0
      have hq0 : qlt (mkRat 1 20) (sims.getD h0 0) = false := by
        cases hq : qlt (mkRat 1 20) (sims.getD h0 0) with
        | false => rfl
        | true =>
          simp only [tfidfEntry, hq, if_true] at hent0
          exact absurd hent0 (Option.some_ne_none _)
      have hs0 : sims.getD h0 0 ≤ mkRat 1 20 := by
        have hn := (not_congr (qlt_iff (mkRat 1 20) (sims.getD h0 0))).1
          (by rw [hq0]; exact Bool.false_ne_true)
        exact not_lt.1 hn
      have hiR : i ∈ (argsortAsc sims).reverse := List.mem_of_mem_take hi
      have hsi : sims.getD i 0 ≤ mkRat 1 20 := by
        rw [hR] at hiR
        rcases List.mem_cons.1 hiR with rfl | hit
        · exact hs0
        · have hpw : ((argsortAsc sims).reverse).Pairwise
              (fun a b => ascLe sims b a = true) := by
            rw [List.pairwise_reverse]
            exact pairwise_isort (ascLe sims) (ascLe_total sims) (ascLe_trans sims) _
          rw [hR] at hpw
          have hih := (List.pairwise_cons.1 hpw).1 i hit
          rw [ascLe, Bool.or_eq_true, Bool.and_eq_true] at hih
          rcases hih with hlt | ⟨heq', _⟩
          · exact le_trans (le_of_lt ((qlt_iff _ _).1 hlt)) hs0
          · rw [of_decide_eq_true heq']
            exact hs0
      have hqi : qlt (mkRat 1 20) (sims.getD i 0) = false := by
        cases hq : qlt (mkRat 1 20) (sims.getD i 0) with
        | false => rfl
        | true => exact absurd ((qlt_iff _ _).1 hq) (not_lt.2 hsi)
      simp only [tfidfEntry]
      rw [hqi]
      simp

/-- For `1 ≤ k ≤ k'` the merged match dict is empty for `k` exactly when it
is empty for `k'`. -/
theorem all_matches_empty_agree (docs : List Document) (sims : List ℚ) (dp : List String)
    (q : String) (k k' : ℕ) (hk : 1 ≤ k) (hkk : k ≤ k') :
    (all_matches docs sims dp q k = [] ↔ all_matches docs sims dp q k' = []) := by
  rw [all_matches, all_matches, foldl_tfidfStep_eq_nil_iff, foldl_tfidfStep_eq_nil_iff]
  constructor
  · rintro ⟨hb, ht⟩
    exact ⟨hb, tm_empty_mono docs sims k k' hk ht⟩
  · rintro ⟨hb, ht⟩
    refine ⟨hb, ?_⟩
    obtain ⟨Δ, hTM, _⟩ := tfidf_matches_prefix docs sims k k' hkk
    rw [hTM] at ht
    exact (List.append_eq_nil.1 ht).1

/-- For `1 ≤ k ≤ k'` one search round is empty for `k` exactly when it is
empty for `k'`. -/
theorem search_empty_agree (docs : List Document) (simsRes : Except String (List ℚ))
    (dp : List String) (q : String) (k k' : ℕ) (hk : 1 ≤ k) (hkk : k ≤ k') :
    (search_with_query docs simsRes dp q k = [] ↔
      search_with_query docs simsRes dp q k' = []) := by
  cases simsRes with
  | error e => exact Iff.rfl
  | ok sims =>
    have h1 : ∀ j, 1 ≤ j →
        ((sortByScoreDesc (all_matches docs sims dp q j)).take j = [] ↔
          all_matches docs sims dp q j = []) := by
      intro j hj
      constructor
      · intro h
        by_contra hne
        have hlen : (sortByScoreDesc (all_matches docs sims dp q j)).length =
            (all_matches docs sims dp q j).length := length_isort descLe _
        cases hS : sortByScoreDesc (all_matches docs sims dp q j) with
        | nil =>
          rw [hS, List.length_nil] at hlen
          exact hne (List.length_eq_zero.1 hlen.symm)
        | cons b s =>
          rw [hS] at h
          cases j with
          | zero => omega
          | succ n => simp at h
      · intro h
        rw [h]
        simp [sortByScoreDesc, isort]
    show ((sortByScoreDesc (all_matches docs sims dp q k)).take k = [] ↔
      (sortByScoreDesc (all_matches docs sims dp q k')).take k' = [])
    rw [h1 k hk, h1 k' (le_trans hk hkk)]
    exact all_matches_empty_agree docs sims dp q k k' hk hkk

/-- Monotonicity of one search round: a document returned at `top_k = k` is
still returned at any `top_k = k' ≥ k`.  Raising `k` only appends TF-IDF
candidates; merging them can raise scores of existing dict entries and
append new entries, and the rank of a surviving entry in the stable
descending sort grows by at most the number of such changes, which is
bounded by `k' - k`. -/
theorem search_mono (docs : List Document) (simsRes : Except String (List ℚ))
    (dp : List String) (q : String) (k k' : ℕ) (hkk : k ≤ k') :
    ∀ r ∈ search_with_query docs simsRes dp q k,
      ∃ r' ∈ search_with_query docs simsRes dp q k', r'.doc = r.doc := by
  cases simsRes with
  | error e =>
    intro r hr
    exact absurd hr (List.not_mem_nil r)
  | ok sims =>
    intro r hr
    have hrtake : r ∈ (isort descLe (all_matches docs sims dp q k)).take k := hr
    have hrM : r ∈ all_matches docs sims dp q k :=
      (mem_isort descLe _ r).1 (List.mem_of_mem_take hrtake)
    have hMnd := all_matches_keys_nodup docs sims dp q k
    have hrank : keyRank (all_matches docs sims dp q k) r < k :=
      (key_mem_take_isort_iff (all_matches docs sims dp q k) r k hMnd hrM).1
        ⟨r, hrtake, beq_self_eq_true _⟩
    obtain ⟨Δ, hTM, hΔ⟩ := tfidf_matches_prefix docs sims k k' hkk
    have hM' : all_matches docs sims dp q k' =
        Δ.foldl tfidfStep (all_matches docs sims dp q k) := by
      rw [all_matches, all_matches, hTM, List.foldl_append]
    obtain ⟨u', E', heq, hk1, hs1, hd1, hcnt⟩ :=
      foldl_tfidfStep_decomp_id Δ (all_matches docs sims dp q k) hMnd
    have hM'eq : all_matches docs sims dp q k' =
        (all_matches docs sims dp q k).map u' ++ E' := by
      rw [hM', heq]
    have hu'mem : u' r ∈ all_matches docs sims dp q k' := by
      rw [hM'eq]
      exact List.mem_append_left _ (List.mem_map_of_mem u' hrM)
    have hM'nd := all_matches_keys_nodup docs sims dp q k'
    have hrank' : keyRank (all_matches docs sims dp q k') (u' r) < k' := by
      have hb := keyRank_map_append_le (all_matches docs sims dp q k) E' u' r hrM hk1 hs1
      rw [← hM'eq] at hb
      omega
    obtain ⟨r', hr'take, hr'key⟩ :=
      (key_mem_take_isort_iff (all_matches docs sims dp q k') (u' r) k' hM'nd hu'mem).2
        hrank'
    have hr'M : r' ∈ all_matches docs sims dp q k' :=
      (mem_isort descLe _ r').1 (List.mem_of_mem_take hr'take)
    have hr'eq : r' = u' r :=
      List.inj_on_of_nodup_map hM'nd hr'M hu'mem (beq_iff_eq.1 hr'key)
    refine ⟨r', hr'take, ?_⟩
    rw [hr'eq, hd1 r]

theorem search_with_query_zero (docs : List Document) (simsRes : Except String (List ℚ))
    (dp : List String) (q : String) : search_with_query docs simsRes dp q 0 = [] := by
  cases simsRes with
  | error e => rfl
  | ok sims => rfl

theorem strategy3Loop_zero (docs : List Document)
    (simsOf : String → Except String (List ℚ)) (dpOf : String → List String) :
    ∀ ws, strategy3Loop docs simsOf dpOf 0 ws = [] := by
  intro ws
  induction ws with
  | nil => rfl
  | cons w ws ih =>
    rw [strategy3Loop]
    by_cases h4 : 4 < pyLen w
    · rw [if_pos h4]
      simp only [search_with_query_zero, List.isEmpty_nil, if_true]
      exact ih
    · rw [if_neg h4]
      exact ih

theorem retrieve_zero (st : RetrieverState)
    (simsOf : String → Except String (List ℚ)) (dpOf : String → List String)
    (query : String) : retrieve_relevant_chunks st simsOf dpOf query 0 = [] := by
  rw [retrieve_relevant_chunks]
  by_cases hg : st.doc_vectors.isNone || st.documents.isEmpty
  · rw [if_pos hg]
  · rw [if_neg hg]
    rfl

/-- A list that already has distinct keys, is sorted descending and fits in
`k` passes through dedup, sort and truncation unchanged. -/
theorem round_project (l : List RDoc) (k : ℕ)
    (hnd : (l.map RDoc.key).Nodup)
    (hp : l.Pairwise (fun a b => descLe a b = true))
    (hlen : l.length ≤ k) :
    (sortByScoreDesc (dedupAux l [])).take k = l := by
  rw [dedupAux_of_nodup l [] (rid_pairwise_of_keys l hnd)
    (fun r _ h => List.not_mem_nil _ h)]
  rw [sortByScoreDesc, isort_of_pairwise descLe l hp]
  exact List.take_of_length_le hlen

theorem search_keys_nodup (docs : List Document) (simsRes : Except String (List ℚ))
    (dp : List String) (q : String) (k : ℕ) :
    ((search_with_query docs simsRes dp q k).map RDoc.key).Nodup := by
  cases simsRes with
  | error e => exact List.Pairwise.nil
  | ok sims =>
    have hM := all_matches_keys_nodup docs sims dp q k
    have hperm : ((isort descLe (all_matches docs sims dp q k)).map RDoc.key).Nodup :=
      (((isort_perm descLe _).map RDoc.key).nodup_iff).2 hM
    show (((isort descLe (all_matches docs sims dp q k)).take k).map RDoc.key).Nodup
    rw [List.map_take]
    exact (List.take_sublist _ _).nodup hperm

theorem search_pairwise (docs : List Document) (simsRes : Except String (List ℚ))
    (dp : List String) (q : String) (k : ℕ) :
    (search_with_query docs simsRes dp q k).Pairwise (fun a b => descLe a b = true) := by
  cases simsRes with
  | error e => exact List.Pairwise.nil
  | ok sims =>
    show ((isort descLe (all_matches docs sims dp q k)).take k).Pairwise _
    exact (pairwise_isort descLe descLe_total descLe_trans _).sublist
      (List.take_sublist _ _)

theorem search_length_le (docs : List Document) (simsRes : Except String (List ℚ))
    (dp : List String) (q : String) (k : ℕ) :
    (search_with_query docs simsRes dp q k).length ≤ k := by
  cases simsRes with
  | error e => exact Nat.zero_le k
  | ok sims =>
    show ((isort descLe (all_matches docs sims dp q k)).take k).length ≤ k
    rw [List.length_take]
    omega

/-- A single search round is a fixed point of the final dedup + sort +
truncate stage of `retrieve_relevant_chunks`. -/
theorem round_fix (docs : List Document) (simsRes : Except String (List ℚ))
    (dp : List String) (q : String) (k : ℕ) :
    (sortByScoreDesc (dedupAux (search_with_query docs simsRes dp q k) [])).take k =
      search_with_query docs simsRes dp q k :=
  round_project _ k (search_keys_nodup docs simsRes dp q k)
    (search_pairwise docs simsRes dp q k) (search_length_le docs simsRes dp q k)

theorem isEmpty_false_of_ne_nil {α : Type} (l : List α) (h : l ≠ []) :
    l.isEmpty = false := by
  cases l with
  | nil => exact absurd rfl h
  | cons a t => rfl

/-- Strategy 3 picks the same word for `k` and for `k' ≥ k`: the success
test of each word (a non-empty round) does not depend on which of the two
counts is used. -/
theorem strategy3Loop_agree (docs : List Document)
    (simsOf : String → Except String (List ℚ)) (dpOf : String → List String)
    (k k' : ℕ) (hk : 1 ≤ k) (hkk : k ≤ k') :
    ∀ ws, (strategy3Loop docs simsOf dpOf k ws = [] ∧
            strategy3Loop docs simsOf dpOf k' ws = []) ∨
      ∃ w, strategy3Loop docs simsOf dpOf k ws =
          search_with_query docs (simsOf w) (dpOf w) w k ∧
        strategy3Loop docs simsOf dpOf k' ws =
          search_with_query docs (simsOf w) (dpOf w) w k' := by
  intro ws
  induction ws with
  | nil => exact Or.inl ⟨rfl, rfl⟩
  | cons w ws ih =>
    rw [strategy3Loop, strategy3Loop]
    by_cases h4 : 4 < pyLen w
    · rw [if_pos h4, if_pos h4]
      by_cases hemp : search_with_query docs (simsOf w) (dpOf w) w k = []
      · have hemp' : search_with_query docs (simsOf w) (dpOf w) w k' = [] :=
          (search_empty_agree docs (simsOf w) (dpOf w) w k k' hk hkk).1 hemp
        simp only [hemp, hemp', List.isEmpty_nil, if_true]
        exact ih
      · have hemp' : search_with_query docs (simsOf w) (dpOf w) w k' ≠ [] := fun h =>
          hemp ((search_empty_agree docs (simsOf w) (dpOf w) w k k' hk hkk).2 h)
        have he1 := isEmpty_false_of_ne_nil _ hemp
        have he2 := isEmpty_false_of_ne_nil _ hemp'
        simp only [he1, he2, Bool.false_eq_true, if_false]
        exact Or.inr ⟨w, rfl, rfl⟩
    · rw [if_neg h4, if_neg h4]
      exact ih

/-- For `1 ≤ k ≤ k'`, `retrieve_relevant_chunks` takes the same strategy
branch for both counts, and the round it returns is a single
`_search_with_query` call with the same effective query. -/
theorem retrieve_pair (st : RetrieverState)
    (simsOf : String → Except String (List ℚ)) (dpOf : String → List String)
    (query : String) (k k' : ℕ) (hk : 1 ≤ k) (hkk : k ≤ k') :
    retrieve_relevant_chunks st simsOf dpOf query k = [] ∨
    ∃ q2, retrieve_relevant_chunks st simsOf dpOf query k =
        search_with_query st.documents (simsOf q2) (dpOf q2) q2 k ∧
      retrieve_relevant_chunks st simsOf dpOf query k' =
        search_with_query st.documents (simsOf q2) (dpOf q2) q2 k' := by
  by_cases hg : st.doc_vectors.isNone || st.documents.isEmpty
  · left
    rw [retrieve_relevant_chunks, if_pos hg]
  · have hk' : 1 ≤ k' := le_trans hk hkk
    by_cases hr1 : search_with_query st.documents (simsOf query) (dpOf query) query k = []
    · have hr1' : search_with_query st.documents (simsOf query) (dpOf query) query k' = [] :=
        (search_empty_agree st.documents (simsOf query) (dpOf query) query k k' hk hkk).1 hr1
      by_cases hc2 : extract_key_terms query ≠ "" ∧ extract_key_terms query ≠ pyLower query
      · by_cases hr2 : search_with_query st.documents (simsOf (extract_key_terms query))
            (dpOf (extract_key_terms query)) (extract_key_terms query) k = []
        · have hr2' : search_with_query st.documents (simsOf (extract_key_terms query))
              (dpOf (extract_key_terms query)) (extract_key_terms query) k' = [] :=
            (search_empty_agree st.documents _ _ _ k k' hk hkk).1 hr2
          have hbody : retrieve_relevant_chunks st simsOf dpOf query k =
              (sortByScoreDesc (dedupAux (strategy3Loop st.documents simsOf dpOf k
                (pySplitWs (extract_key_terms query))) [])).take k := by
            rw [retrieve_relevant_chunks, if_neg hg]
            simp only [hr1, List.isEmpty_nil, Bool.true_and, Bool.and_eq_true,
              decide_eq_true_eq]
            rw [if_pos hc2]
            simp only [hr2, List.isEmpty_nil, List.nil_append, if_true]
          have hbody' : retrieve_relevant_chunks st simsOf dpOf query k' =
              (sortByScoreDesc (dedupAux (strategy3Loop st.documents simsOf dpOf k'
                (pySplitWs (extract_key_terms query))) [])).take k' := by
            rw [retrieve_relevant_chunks, if_neg hg]
            simp only [hr1', List.isEmpty_nil, Bool.true_and, Bool.and_eq_true,
              decide_eq_true_eq]
            rw [if_pos hc2]
            simp only [hr2', List.isEmpty_nil, List.nil_append, if_true]
          rcases strategy3Loop_agree st.documents simsOf dpOf k k' hk hkk
              (pySplitWs (extract_key_terms query)) with ⟨hl, _⟩ | ⟨w, hl, hl'⟩
          · left
            rw [hbody, hl]
            simp [dedupAux, sortByScoreDesc, isort]
          · right
            refine ⟨w, ?_, ?_⟩
            · rw [hbody, hl]
              exact round_fix st.documents (simsOf w) (dpOf w) w k
            · rw [hbody', hl']
              exact round_fix st.documents (simsOf w) (dpOf w) w k'
        · have hr2' : search_with_query st.documents (simsOf (extract_key_terms query))
              (dpOf (extract_key_terms query)) (extract_key_terms query) k' ≠ [] := fun h =>
            hr2 ((search_empty_agree st.documents _ _ _ k k' hk hkk).2 h)
          have he2 := isEmpty_false_of_ne_nil _ hr2
          have he2' := isEmpty_false_of_ne_nil _ hr2'
          right
          refine ⟨extract_key_terms query, ?_, ?_⟩
          · rw [retrieve_relevant_chunks, if_neg hg]
            simp only [hr1, List.isEmpty_nil, Bool.true_and, Bool.and_eq_true,
              decide_eq_true_eq]
            rw [if_pos hc2]
            simp only [he2, List.nil_append, Bool.false_eq_true, if_false,
              List.append_nil]
            exact round_fix st.documents (simsOf (extract_key_terms query))
              (dpOf (extract_key_terms query)) (extract_key_terms query) k
          · rw [retrieve_relevant_chunks, if_neg hg]
            simp only [hr1', List.isEmpty_nil, Bool.true_and, Bool.and_eq_true,
              decide_eq_true_eq]
            rw [if_pos hc2]
            simp only [he2', List.nil_append, Bool.false_eq_true, if_false,
              List.append_nil]
            exact round_fix st.documents (simsOf (extract_key_terms query))
              (dpOf (extract_key_terms query)) (extract_key_terms query) k'
      · have hbody : retrieve_relevant_chunks st simsOf dpOf query k =
            (sortByScoreDesc (dedupAux (strategy3Loop st.documents simsOf dpOf k
              (pySplitWs (extract_key_terms query))) [])).take k := by
          rw [retrieve_relevant_chunks, if_neg hg]
          simp only [hr1, List.isEmpty_nil, Bool.true_and, Bool.and_eq_true,
            decide_eq_true_eq]
          rw [if_neg hc2]
          simp only [List.isEmpty_nil, List.nil_append, if_true]
        have hbody' : retrieve_relevant_chunks st simsOf dpOf query k' =
            (sortByScoreDesc (dedupAux (strategy3Loop st.documents simsOf dpOf k'
              (pySplitWs (extract_key_terms query))) [])).take k' := by
          rw [retrieve_relevant_chunks, if_neg hg]
          simp only [hr1', List.isEmpty_nil, Bool.true_and, Bool.and_eq_true,
            decide_eq_true_eq]
          rw [if_neg hc2]
          simp only [List.isEmpty_nil, List.nil_append, if_true]
        rcases strategy3Loop_agree st.documents simsOf dpOf k k' hk hkk
            (pySplitWs (extract_key_terms query)) with ⟨hl, _⟩ | ⟨w, hl, hl'⟩
        · left
          rw [hbody, hl]
          simp [dedupAux, sortByScoreDesc, isort]
        · right
          refine ⟨w, ?_, ?_⟩
          · rw [hbody, hl]
            exact round_fix st.documents (simsOf w) (dpOf w) w k
          · rw [hbody', hl']
            exact round_fix st.documents (simsOf w) (dpOf w) w k'
    · have hr1' : search_with_query st.documents (simsOf query) (dpOf query) query k' ≠ [] :=
        fun h => hr1 ((search_empty_agree st.documents (simsOf query) (dpOf query)
          query k k' hk hkk).2 h)
      have he1 := isEmpty_false_of_ne_nil _ hr1
      have he1' := isEmpty_false_of_ne_nil _ hr1'
      right
      refine ⟨query, ?_, ?_⟩
      · rw [retrieve_relevant_chunks, if_neg hg]
        simp only [he1, Bool.false_and, Bool.false_eq_true, if_false, List.append_nil]
        exact round_fix st.documents (simsOf query) (dpOf query) query k
      · rw [retrieve_relevant_chunks, if_neg hg]
        simp only [he1', Bool.false_and, Bool.false_eq_true, if_false, List.append_nil]
        exact round_fix st.documents (simsOf query) (dpOf query) query k'

/-- **C5**: retrieval is monotone in the requested count — for `k < k'`,
every document returned by `retrieve_relevant_chunks` with count `k` is
also returned with count `k'`.  Raising `k` keeps the strategy branch and
the effective query unchanged, only appends TF-IDF candidates past the
`0.05` threshold, and the rank of a surviving merged entry in the stable
descending sort grows by at most `k' - k`, so it stays within the longer
truncation window. -/
theorem c5_retrieval_monotone (st : RetrieverState)
    (simsOf : String → Except String (List ℚ)) (dpOf : String → List String)
    (query : String) (k k' : ℕ) (hkk : k < k') :
    ∀ r ∈ retrieve_relevant_chunks st simsOf dpOf query k,
      ∃ r' ∈ retrieve_relevant_chunks st simsOf dpOf query k', r'.doc = r.doc := by
  intro r hr
  rcases Nat.eq_zero_or_pos k with rfl | hk1
  · rw [retrieve_zero] at hr
    exact absurd hr (List.not_mem_nil r)
  · rcases retrieve_pair st simsOf dpOf query k k' hk1 (le_of_lt hkk) with
      hnil | ⟨q2, hq, hq'⟩
    · rw [hnil] at hr
      exact absurd hr (List.not_mem_nil r)
    · rw [hq] at hr
      rw [hq']
      exact search_mono st.documents (simsOf q2) (dpOf q2) q2 k k' (le_of_lt hkk) r hr

/-- Concrete instance of C5: the single result for `k = 1` on a one-file
corpus is still returned for `k' = 2`. -/
theorem c5_retrieval_monotone_witness :
    1 < 2 ∧ ∃ r' ∈ retrieve_relevant_chunks ⟨[docA], some ()⟩
        (fun _ => .ok [mkRat 1 10]) (fun _ => []) "hello" 2,
      r'.doc = (⟨docA, mkRat 3 4, .exact⟩ : RDoc).doc :=
  ⟨by decide,
    c5_retrieval_monotone ⟨[docA], some ()⟩ (fun _ => .ok [mkRat 1 10]) (fun _ => [])
      "hello" 1 2 (by decide) ⟨docA, mkRat 3 4, .exact⟩ (by decide)⟩
